import Mathlib

/-!
Shallow embedding of the configuration-resolution core of the
IS-ENES-Data/stac-generator repository: the deep-merge algorithm
(`dict_merge`, shipped in two variants: `stac_generator.core.utils` and
`asset_scanner.core.utils`), the plugin loader (`load_plugins`), and the
path materializer (`dot2dict`, `nested_get`).

Python runtime values relevant to these functions are modelled by `PVal`
(ints, bools, strings, None, lists, string-keyed dicts).  Dicts are
modelled as insertion-ordered association lists, mirroring CPython dicts;
assignment to an existing key keeps its position, assignment to a fresh
key appends.  Python `==` (which identifies `True` with `1`, compares
lists pointwise and dicts by key set) is modelled by `pyEq`.
-/

namespace StacGen

/-- Python values as they occur in configuration structures handled by
`dict_merge` / `dot2dict` / `nested_get`. -/
inductive PVal : Type where
  | int (n : Int)
  | bool (b : Bool)
  | str (s : String)
  | pnone
  | list (elts : List PVal)
  | dict (entries : List (String × PVal))
  deriving Repr

/-- A Python dict: insertion-ordered association list with string keys. -/
abbrev PDict := List (String × PVal)

mutual

/-- Structural decidable equality for `PVal` (the derive handler does not
support this nested inductive). -/
def decEqPVal : (a b : PVal) → Decidable (a = b)
  | .int m, .int n =>
    match decEq m n with
    | isTrue h => isTrue (by rw [h])
    | isFalse h => isFalse (by intro hh; injection hh; contradiction)
  | .bool a, .bool b =>
    match decEq a b with
    | isTrue h => isTrue (by rw [h])
    | isFalse h => isFalse (by intro hh; injection hh; contradiction)
  | .str s, .str t =>
    match decEq s t with
    | isTrue h => isTrue (by rw [h])
    | isFalse h => isFalse (by intro hh; injection hh; contradiction)
  | .pnone, .pnone => isTrue rfl
  | .list xs, .list ys =>
    match decEqPValList xs ys with
    | isTrue h => isTrue (by rw [h])
    | isFalse h => isFalse (by intro hh; injection hh; contradiction)
  | .dict d, .dict e =>
    match decEqPValEntries d e with
    | isTrue h => isTrue (by rw [h])
    | isFalse h => isFalse (by intro hh; injection hh; contradiction)
  | .int _, .bool _ => isFalse (fun h => PVal.noConfusion h)
  | .int _, .str _ => isFalse (fun h => PVal.noConfusion h)
  | .int _, .pnone => isFalse (fun h => PVal.noConfusion h)
  | .int _, .list _ => isFalse (fun h => PVal.noConfusion h)
  | .int _, .dict _ => isFalse (fun h => PVal.noConfusion h)
  | .bool _, .int _ => isFalse (fun h => PVal.noConfusion h)
  | .bool _, .str _ => isFalse (fun h => PVal.noConfusion h)
  | .bool _, .pnone => isFalse (fun h => PVal.noConfusion h)
  | .bool _, .list _ => isFalse (fun h => PVal.noConfusion h)
  | .bool _, .dict _ => isFalse (fun h => PVal.noConfusion h)
  | .str _, .int _ => isFalse (fun h => PVal.noConfusion h)
  | .str _, .bool _ => isFalse (fun h => PVal.noConfusion h)
  | .str _, .pnone => isFalse (fun h => PVal.noConfusion h)
  | .str _, .list _ => isFalse (fun h => PVal.noConfusion h)
  | .str _, .dict _ => isFalse (fun h => PVal.noConfusion h)
  | .pnone, .int _ => isFalse (fun h => PVal.noConfusion h)
  | .pnone, .bool _ => isFalse (fun h => PVal.noConfusion h)
  | .pnone, .str _ => isFalse (fun h => PVal.noConfusion h)
  | .pnone, .list _ => isFalse (fun h => PVal.noConfusion h)
  | .pnone, .dict _ => isFalse (fun h => PVal.noConfusion h)
  | .list _, .int _ => isFalse (fun h => PVal.noConfusion h)
  | .list _, .bool _ => isFalse (fun h => PVal.noConfusion h)
  | .list _, .str _ => isFalse (fun h => PVal.noConfusion h)
  | .list _, .pnone => isFalse (fun h => PVal.noConfusion h)
  | .list _, .dict _ => isFalse (fun h => PVal.noConfusion h)
  | .dict _, .int _ => isFalse (fun h => PVal.noConfusion h)
  | .dict _, .bool _ => isFalse (fun h => PVal.noConfusion h)
  | .dict _, .str _ => isFalse (fun h => PVal.noConfusion h)
  | .dict _, .pnone => isFalse (fun h => PVal.noConfusion h)
  | .dict _, .list _ => isFalse (fun h => PVal.noConfusion h)

/-- Decidable equality for lists of `PVal`. -/
def decEqPValList : (xs ys : List PVal) → Decidable (xs = ys)
  | [], [] => isTrue rfl
  | [], _ :: _ => isFalse (fun h => List.noConfusion h)
  | _ :: _, [] => isFalse (fun h => List.noConfusion h)
  | x :: xs, y :: ys =>
    match decEqPVal x y, decEqPValList xs ys with
    | isTrue h1, isTrue h2 => isTrue (by rw [h1, h2])
    | isFalse h1, _ => isFalse (by intro hh; injection hh; contradiction)
    | _, isFalse h2 => isFalse (by intro hh; injection hh; contradiction)

/-- Decidable equality for dict entry lists. -/
def decEqPValEntries : (d e : List (String × PVal)) → Decidable (d = e)
  | [], [] => isTrue rfl
  | [], _ :: _ => isFalse (fun h => List.noConfusion h)
  | _ :: _, [] => isFalse (fun h => List.noConfusion h)
  | (k1, v1) :: d, (k2, v2) :: e =>
    match decEq k1 k2, decEqPVal v1 v2, decEqPValEntries d e with
    | isTrue h1, isTrue h2, isTrue h3 => isTrue (by rw [h1, h2, h3])
    | isFalse h1, _, _ =>
      isFalse (by intro hh; injection hh with hp _; injection hp; contradiction)
    | _, isFalse h2, _ =>
      isFalse (by intro hh; injection hh with hp _; injection hp; contradiction)
    | _, _, isFalse h3 => isFalse (by intro hh; injection hh; contradiction)

end

instance : DecidableEq PVal := decEqPVal

/-- Python truthiness (`bool(v)`): zero, `False`, empty string, `None`,
empty list and empty dict are falsy. -/
def truthy : PVal → Bool
  | .int n => n != 0
  | .bool b => b
  | .str s => s ≠ ""
  | .pnone => false
  | .list elts => !elts.isEmpty
  | .dict entries => !entries.isEmpty

/-- Truthiness of `dict.get(k)`'s result: a missing key yields `None`,
which is falsy. -/
def truthyOpt : Option PVal → Bool
  | Option.none => false
  | some v => truthy v

/-- The Python runtime types occurring among `PVal`s. -/
inductive PType : Type where
  | int | bool | str | nonetype | list | dict
  deriving Repr, DecidableEq

/-- `type(v)` for the modelled values.  Note `type(True)` is `bool`. -/
def typeOf : PVal → PType
  | .int _ => .int
  | .bool _ => .bool
  | .str _ => .str
  | .pnone => .nonetype
  | .list _ => .list
  | .dict _ => .dict

/-- `isinstance(v, t)` for the modelled runtime types: exact type match,
except that `bool` is a subclass of `int`. -/
def isinst (v : PVal) (t : PType) : Bool :=
  match t, v with
  | .int, .int _ => true
  | .int, .bool _ => true
  | .bool, .bool _ => true
  | .str, .str _ => true
  | .nonetype, .pnone => true
  | .list, .list _ => true
  | .dict, .dict _ => true
  | _, _ => false

mutual

/-- Python `==` on the modelled values: numeric cross-equality between
`bool` and `int` (`True == 1`), pointwise equality on lists, and
key-set-plus-values equality on dicts (insertion order is ignored). -/
def pyEq : PVal → PVal → Bool
  | .int m, .int n => m == n
  | .int m, .bool b => m == (if b then (1 : Int) else 0)
  | .bool b, .int n => (if b then (1 : Int) else 0) == n
  | .bool a, .bool b => a == b
  | .str s, .str t => s == t
  | .pnone, .pnone => true
  | .list xs, .list ys => pyEqList xs ys
  | .dict d, .dict e => d.length == e.length && pyEqEntries d e
  | _, _ => false

/-- Pointwise Python `==` on lists (also requires equal lengths). -/
def pyEqList : List PVal → List PVal → Bool
  | [], [] => true
  | x :: xs, y :: ys => pyEq x y && pyEqList xs ys
  | _, _ => false

/-- Every entry of the first dict is present (by key) in the second with
a `==`-equal value. -/
def pyEqEntries : PDict → PDict → Bool
  | [], _ => true
  | (k, v) :: rest, e => pyEqLookup k v e && pyEqEntries rest e

/-- Look up key `k` in a dict and compare the stored value with `v`. -/
def pyEqLookup (k : String) (v : PVal) : PDict → Bool
  | [] => false
  | (k2, w) :: rest => if k = k2 then pyEq v w else pyEqLookup k v rest

end

/-- Python `x in ys` for a list `ys`: membership by `==`. -/
def pyIn (x : PVal) (ys : List PVal) : Bool :=
  ys.any (fun y => pyEq x y)

/-- `d.get(k)` / `d[k]` on a Python dict: the first (only, for genuine
dicts) binding of `k`. -/
def alookup (d : PDict) (k : String) : Option PVal :=
  match d with
  | [] => Option.none
  | (k2, v) :: rest => if k = k2 then some v else alookup rest k

/-- `d[k] = v` on a Python dict: replace the value in place if `k` is
bound, otherwise append the new binding at the end. -/
def aset (d : PDict) (k : String) (v : PVal) : PDict :=
  match d with
  | [] => [(k, v)]
  | (k2, w) :: rest => if k = k2 then (k2, v) :: rest else (k2, w) :: aset rest k v

/-- The ordered key list of a dict. -/
def dkeys (d : PDict) : List String := d.map Prod.fst

mutual

/-- Well-formedness of a value as a Python object graph: every dict
reachable inside it has pairwise distinct keys (as genuine Python dicts
do by construction). -/
def valWF : PVal → Bool
  | .int _ | .bool _ | .str _ | .pnone => true
  | .list elts => listWFaux elts
  | .dict entries => decide ((dkeys entries).Nodup) && dictWFaux entries

/-- Well-formedness of every element of a list. -/
def listWFaux : List PVal → Bool
  | [] => true
  | x :: xs => valWF x && listWFaux xs

/-- Well-formedness of every value of a dict. -/
def dictWFaux : PDict → Bool
  | [] => true
  | (_, v) :: rest => valWF v && dictWFaux rest

end

/-- Well-formedness of a dict: distinct keys at this level and
recursively well-formed values. -/
def dictWF (d : PDict) : Bool := valWF (.dict d)

/-- The Python exceptions that the modelled functions can raise. -/
inductive PyErr : Type where
  | typeError
  | assertionError
  | indexError
  | attributeError
  | keyError
  deriving Repr, DecidableEq

/-- The in-place list union of `dict_merge`'s sequence branch
(`for list_value in v: if list_value not in rtn_dct[k]:
rtn_dct[k].append(list_value)`): fold the incoming elements into the
accumulator's list, appending each element not already present by `==`
in the grown list. -/
def unionPy (cs vs : List PVal) : List PVal :=
  vs.foldl (fun acc lv => if pyIn lv acc then acc else acc ++ [lv]) cs

mutual

/-- Structural size of a value (termination measure for the merge
recursion; the generated `sizeOf` of this nested inductive has no
executable code). -/
def psize : PVal → Nat
  | .int _ | .bool _ | .str _ | .pnone => 1
  | .list elts => 1 + psizeList elts
  | .dict entries => 1 + psizeEntries entries

/-- Structural size of a list of values. -/
def psizeList : List PVal → Nat
  | [] => 1
  | x :: xs => 1 + psize x + psizeList xs

/-- Structural size of a dict entry list. -/
def psizeEntries : PDict → Nat
  | [] => 1
  | (_, v) :: rest => 2 + psize v + psizeEntries rest

end

/-- Sum of the sizes of a list of dicts (termination measure for the
merge recursion). -/
def sumSizes (l : List PDict) : Nat := l.foldr (fun d n => psizeEntries d + n) 0

theorem psize_pos (v : PVal) : 1 ≤ psize v := by
  cases v <;> simp [psize]

theorem psizeEntries_pos (l : PDict) : 1 ≤ psizeEntries l := by
  cases l with
  | nil => simp [psizeEntries]
  | cons x rest => cases x; simp [psizeEntries]; omega

theorem psizeEntries_filter_le (p : String × PVal → Bool) (l : PDict) :
    psizeEntries (l.filter p) ≤ psizeEntries l := by
  induction l with
  | nil => simp
  | cons x xs ih =>
    cases x with
    | mk k v =>
      cases hx : p (k, v) <;> simp [List.filter, hx, psizeEntries] <;> omega

mutual

/-- The per-key merge action of `stac_generator.core.utils.dict_merge`
for a key whose accumulator value `cur` is truthy (the body of the
`for k, v in merge_dct.items()` loop below the `not rtn_dct.get(k)`
test), returning the value stored back into `rtn_dct[k]`, or the raised
exception.  Branches, in source order:
type-mismatch reconciliation (`not isinstance(v, type(rtn_dct[k]))`),
recursive mapping merge, list union, scalar overwrite. -/
def vmergeS (cur : PVal) (v : PVal) (addKeys : Bool) : Except PyErr PVal :=
  if !isinst v (typeOf cur) then
    match v, cur with
    | .list vs, .list cs =>
      if pyIn cur vs then .ok v
      else if pyIn v cs then .ok cur
      else .error .typeError
    | .list vs, _ =>
      if pyIn cur vs then .ok v else .error .typeError
    | _, .list cs =>
      if pyIn v cs then .ok cur else .error .typeError
    | _, _ => .error .typeError
  else
    match cur, v with
    | .dict cd, .dict vd => (dictMergeStac [cd, vd] addKeys).map PVal.dict
    | .list cs, .list vs => .ok (.list (unionPy cs vs))
    | _, _ =>
      match v with
      | .list _ =>
        -- `list_value not in rtn_dct[k]` with a non-list accumulator
        -- value would raise TypeError in Python; unreachable, since
        -- `isinstance(v, type(rtn_dct[k]))` with `v` a list forces the
        -- accumulator's value to be a list.
        .error .typeError
      | _ => .ok v
termination_by 8 * psize v
decreasing_by
  simp [sumSizes, psize]
  omega

/-- `stac_generator.core.utils.dict_merge(*args, add_keys=...)`:
asserts at least two dicts, shallow-copies the first and folds the
remaining layers into it. -/
def dictMergeStac (args : List PDict) (addKeys : Bool) : Except PyErr PDict :=
  match args with
  | [] => .error .assertionError
  | [_] => .error .assertionError
  | a :: rest => mergeLayersS a rest addKeys
termination_by 8 * sumSizes args.tail + 5
decreasing_by
  simp [sumSizes]

/-- The `for merge_dct in merge_dicts` loop of the stac_generator
`dict_merge`: restrict the layer to existing keys when `add_keys` is
false, then merge its items. -/
def mergeLayersS (acc : PDict) (layers : List PDict) (addKeys : Bool) :
    Except PyErr PDict :=
  match layers with
  | [] => .ok acc
  | l :: ls =>
    let l' := if addKeys then l else l.filter (fun kv => (alookup acc kv.1).isSome)
    match mergeEntriesS acc l' addKeys with
    | .error e => .error e
    | .ok acc' => mergeLayersS acc' ls addKeys
termination_by 8 * sumSizes layers + 4
decreasing_by
  · simp [sumSizes]
    have h := psizeEntries_filter_le (fun kv => (alookup acc kv.1).isSome) l
    split <;> omega
  · simp [sumSizes]
    have h1 := psizeEntries_pos l
    omega

/-- The `for k, v in merge_dct.items()` loop of the stac_generator
`dict_merge`: a key whose accumulator value is missing or falsy is
assigned `v` as is; otherwise the per-key action `vmergeS` decides the
stored value or raises. -/
def mergeEntriesS (acc : PDict) (entries : List (String × PVal)) (addKeys : Bool) :
    Except PyErr PDict :=
  match entries with
  | [] => .ok acc
  | (k, v) :: rest =>
    match alookup acc k with
    | Option.none => mergeEntriesS (aset acc k v) rest addKeys
    | some cur =>
      if !truthy cur then mergeEntriesS (aset acc k v) rest addKeys
      else
        match vmergeS cur v addKeys with
        | .error e => .error e
        | .ok w => mergeEntriesS (aset acc k w) rest addKeys
termination_by 8 * psizeEntries entries + 2
decreasing_by
  all_goals simp [psizeEntries]
  all_goals omega

end

mutual

/-- The per-key merge action of `asset_scanner.core.utils.dict_merge`
for a key whose accumulator value `cur` is truthy.  It differs from the
stac_generator variant in exactly one branch: any exact runtime-type
difference (`type(v) != type(rtn_dct[k])`) raises TypeError at once,
with no containment reconciliation. -/
def vmergeA (cur : PVal) (v : PVal) (addKeys : Bool) : Except PyErr PVal :=
  if typeOf v != typeOf cur then .error .typeError
  else
    match cur, v with
    | .dict cd, .dict vd => (dictMergeAsset [cd, vd] addKeys).map PVal.dict
    | .list cs, .list vs => .ok (.list (unionPy cs vs))
    | _, _ =>
      match v with
      | .list _ =>
        -- unreachable: `type(v) == type(rtn_dct[k])` with `v` a list
        -- forces the accumulator's value to be a list.
        .error .typeError
      | _ => .ok v
termination_by 8 * psize v
decreasing_by
  simp [sumSizes, psize]
  omega

/-- `asset_scanner.core.utils.dict_merge(*args, add_keys=...)`. -/
def dictMergeAsset (args : List PDict) (addKeys : Bool) : Except PyErr PDict :=
  match args with
  | [] => .error .assertionError
  | [_] => .error .assertionError
  | a :: rest => mergeLayersA a rest addKeys
termination_by 8 * sumSizes args.tail + 5
decreasing_by
  simp [sumSizes]

/-- The `for merge_dct in merge_dicts` loop of the asset_scanner
`dict_merge`. -/
def mergeLayersA (acc : PDict) (layers : List PDict) (addKeys : Bool) :
    Except PyErr PDict :=
  match layers with
  | [] => .ok acc
  | l :: ls =>
    let l' := if addKeys then l else l.filter (fun kv => (alookup acc kv.1).isSome)
    match mergeEntriesA acc l' addKeys with
    | .error e => .error e
    | .ok acc' => mergeLayersA acc' ls addKeys
termination_by 8 * sumSizes layers + 4
decreasing_by
  · simp [sumSizes]
    have h := psizeEntries_filter_le (fun kv => (alookup acc kv.1).isSome) l
    split <;> omega
  · simp [sumSizes]
    have h1 := psizeEntries_pos l
    omega

/-- The `for k, v in merge_dct.items()` loop of the asset_scanner
`dict_merge`. -/
def mergeEntriesA (acc : PDict) (entries : List (String × PVal)) (addKeys : Bool) :
    Except PyErr PDict :=
  match entries with
  | [] => .ok acc
  | (k, v) :: rest =>
    match alookup acc k with
    | Option.none => mergeEntriesA (aset acc k v) rest addKeys
    | some cur =>
      if !truthy cur then mergeEntriesA (aset acc k v) rest addKeys
      else
        match vmergeA cur v addKeys with
        | .error e => .error e
        | .ok w => mergeEntriesA (aset acc k w) rest addKeys
termination_by 8 * psizeEntries entries + 2
decreasing_by
  all_goals simp [psizeEntries]
  all_goals omega

end

/-! ### Path materializer: `nested_get` and `dot2dict` -/

/-- The `for key in key_list` loop of `nested_get`: any key other than
(the value of) the last key advances with `dict_nest.get(key, {})`; the
first key equal to the last key returns `dict_nest.get(key)` at once.
A `.get` on a non-mapping raises AttributeError.  An exhausted loop hits
the implicit `return None` of the Python function. -/
def nestedGetLoop (dictNest : PVal) (keys : List String) (lastKey : String) :
    Except PyErr (Option PVal) :=
  match keys with
  | [] => .ok Option.none
  | k :: ks =>
    if k ≠ lastKey then
      match dictNest with
      | .dict d => nestedGetLoop ((alookup d k).getD (.dict [])) ks lastKey
      | _ => .error .attributeError
    else
      match dictNest with
      | .dict d => .ok (alookup d k)
      | _ => .error .attributeError

/-- `stac_generator.core.utils.nested_get(key_list, input_dict)`:
`key_list[-1]` raises IndexError on an empty key list; otherwise the
loop above runs over the keys. -/
def nestedGet (keyList : List String) (inputDict : PDict) :
    Except PyErr (Option PVal) :=
  match keyList.getLast? with
  | Option.none => .error .indexError
  | some lastKey => nestedGetLoop (.dict inputDict) keyList lastKey

/-- Python `key.split(".")` at the character level: the chunks between
occurrences of `'.'`, keeping empty chunks (`"".split(".") == [""]`,
`".".split(".") == ["", ""]`). -/
def pySplitCh : List Char → List (List Char)
  | [] => [[]]
  | c :: cs =>
    match pySplitCh cs with
    | [] => [[]]
    | g :: gs => if c = '.' then [] :: g :: gs else (c :: g) :: gs

/-- Python `".".join(parts)` at the character level. -/
def pyJoinCh : List (List Char) → List Char
  | [] => []
  | [p] => p
  | p :: rest => p ++ '.' :: pyJoinCh rest

/-- Python `key.split(".")`. -/
def pySplitDot (s : String) : List String := (pySplitCh s.data).map String.mk

/-- Python `".".join(parts)`. -/
def pyJoinDot (parts : List String) : String :=
  String.mk (pyJoinCh (parts.map String.data))

theorem pySplitCh_ne_nil (l : List Char) : pySplitCh l ≠ [] := by
  cases l with
  | nil => simp [pySplitCh]
  | cons c cs =>
    simp only [pySplitCh]
    cases pySplitCh cs with
    | nil => simp
    | cons g gs => cases decEq c '.' <;> simp [*]

theorem pyJoinCh_cons (p : List Char) (q : List Char) (rest : List (List Char)) :
    pyJoinCh (p :: q :: rest) = p ++ '.' :: pyJoinCh (q :: rest) := rfl

/-- `".".join` undoes `key.split(".")`. -/
theorem pyJoinCh_pySplitCh (l : List Char) : pyJoinCh (pySplitCh l) = l := by
  induction l with
  | nil => rfl
  | cons c cs ih =>
    cases h : pySplitCh cs with
    | nil => exact absurd h (pySplitCh_ne_nil cs)
    | cons g gs =>
      rw [h] at ih
      by_cases hc : c = '.'
      · subst hc
        have hs : pySplitCh ('.' :: cs) = [] :: g :: gs := by
          simp [pySplitCh, h]
        rw [hs, pyJoinCh_cons, ih]
        rfl
      · have hs : pySplitCh (c :: cs) = (c :: g) :: gs := by
          simp [pySplitCh, h, hc]
        rw [hs]
        cases gs with
        | nil =>
          simp only [pyJoinCh] at ih ⊢
          rw [ih]
        | cons g2 gs2 =>
          rw [pyJoinCh_cons] at ih ⊢
          rw [List.cons_append, ih]

/-- Appending one more segment to a non-empty join costs the separator
plus the segment. -/
theorem pyJoinCh_append_single (init : List (List Char)) (last : List Char)
    (h : init ≠ []) :
    pyJoinCh (init ++ [last]) = pyJoinCh init ++ '.' :: last := by
  induction init with
  | nil => exact absurd rfl h
  | cons p rest ih =>
    cases rest with
    | nil => rfl
    | cons q rest2 =>
      have ih2 := ih (by simp)
      simp only [List.cons_append, pyJoinCh_cons] at ih2 ⊢
      rw [ih2, List.append_assoc]
      rfl

theorem pySplitCh_dot_cons (rest : List Char) :
    pySplitCh ('.' :: rest) = [] :: pySplitCh rest := by
  cases h : pySplitCh rest with
  | nil => exact absurd h (pySplitCh_ne_nil rest)
  | cons g gs => simp [pySplitCh, h]

/-- Prepending a dot-free chunk extends the first group of a split. -/
theorem pySplitCh_dotfree_append (p : List Char) (hp : '.' ∉ p) (l : List Char)
    (g : List Char) (gs : List (List Char)) (h : pySplitCh l = g :: gs) :
    pySplitCh (p ++ l) = (p ++ g) :: gs := by
  induction p with
  | nil => simpa using h
  | cons c cs ih =>
    have hc : c ≠ '.' := fun hcc => hp (by simp [hcc])
    have hcs : '.' ∉ cs := fun hm => hp (by simp [hm])
    simp only [List.cons_append, pySplitCh, List.append_eq]
    rw [ih hcs]
    simp [hc]

/-- A dot-free chunk splits into itself. -/
theorem pySplitCh_dotfree (p : List Char) (hp : '.' ∉ p) :
    pySplitCh p = [p] := by
  have := pySplitCh_dotfree_append p hp [] [] [] rfl
  simpa using this

/-- `key.split(".")` undoes `".".join(parts)` for dot-free parts. -/
theorem pySplitCh_pyJoinCh (parts : List (List Char)) (hne : parts ≠ [])
    (hdot : ∀ p ∈ parts, '.' ∉ p) : pySplitCh (pyJoinCh parts) = parts := by
  induction parts with
  | nil => exact absurd rfl hne
  | cons p rest ih =>
    have hp : '.' ∉ p := hdot p (by simp)
    cases rest with
    | nil => exact pySplitCh_dotfree p hp
    | cons q rest2 =>
      have ihr := ih (by simp) (fun x hx => hdot x (List.mem_cons_of_mem p hx))
      rw [pyJoinCh_cons]
      have hstep : pySplitCh ('.' :: pyJoinCh (q :: rest2)) =
          [] :: q :: rest2 := by
        rw [pySplitCh_dot_cons, ihr]
      have := pySplitCh_dotfree_append p hp ('.' :: pyJoinCh (q :: rest2))
        [] (q :: rest2) hstep
      simpa using this

theorem string_data_ne_nil_of_ne_empty (s : String) (h : s ≠ "") :
    s.data ≠ [] := by
  intro h0
  apply h
  cases s with
  | mk data => cases data with
    | nil => rfl
    | cons a as => simp at h0

/-- `stac_generator.core.utils.dot2dict(key, val)`: an empty (falsy) key
returns the value unchanged; otherwise the key is split on `"."`, the
last segment is popped to wrap the value one level deeper, and the
rejoined remainder recurses. -/
def dot2dict (key : String) (val : PVal) : PVal :=
  if h : key = "" then val
  else
    match hp : pySplitCh key.data with
    | [] => val  -- unreachable: a split is never empty
    | g :: gs =>
      dot2dict (String.mk (pyJoinCh ((g :: gs).dropLast)))
        (.dict [(String.mk ((g :: gs).getLast (by simp)), val)])
termination_by key.data.length
decreasing_by
  have hj : pyJoinCh (g :: gs) = key.data := by
    rw [← hp]; exact pyJoinCh_pySplitCh key.data
  cases gs with
  | nil =>
    have hd : key.data ≠ [] := string_data_ne_nil_of_ne_empty key h
    simp only [List.dropLast_single, pyJoinCh]
    show ([] : List Char).length < key.data.length
    cases hdd : key.data with
    | nil => exact absurd hdd hd
    | cons a as => simp [hdd]
  | cons q gs2 =>
    have hsplit : (g :: q :: gs2) =
        (g :: q :: gs2).dropLast ++ [(g :: q :: gs2).getLast (by simp)] :=
      (List.dropLast_append_getLast (by simp)).symm
    have hlen : pyJoinCh (g :: q :: gs2) =
        pyJoinCh ((g :: q :: gs2).dropLast) ++ '.' ::
          ((g :: q :: gs2).getLast (by simp)) := by
      conv_lhs => rw [hsplit]
      exact pyJoinCh_append_single _ _ (by simp)
    show (pyJoinCh ((g :: q :: gs2).dropLast)).length < key.data.length
    rw [← hj, hlen]
    simp

/-- The single-branch nested mapping `{s1: {s2: ... {sn: v}}}`. -/
def nestedSingle (ss : List String) (v : PVal) : PVal :=
  ss.foldr (fun s acc => PVal.dict [(s, acc)]) v

/-! ### Plugin loader: `load_plugins` -/

/-- One entry of a plugin section: the `name` key (read by the failure
log line) together with the remaining keyword arguments handed to the
factory. -/
structure PluginConf where
  name : String
  args : List (String × PVal)
  deriving Repr, DecidableEq

/-- The exceptions `load_plugins` can raise: a missing section
(`conf[conf_section]` raises KeyError) or `NoPluginsError` with its
message. -/
inductive LoadErr : Type where
  | keyError (missingSection : String)
  | noPlugins (message : String)
  deriving Repr, DecidableEq

/-- The `for plugin_conf in conf[conf_section]` loop of `load_plugins`:
each spec is handed to `plugins.get_processor(**plugin_conf)`; a success
is appended to the result list, and any exception is caught and logged
as `Failed to load plugin: {name}`.  `getProc` abstracts
`HandlerPicker.get_processor` (the `HandlerPicker` class is outside the
modelled sources); its `Except` failures stand for any exception raised
by lookup or by the factory. -/
def loadPluginsLoop {α : Type} (getProc : PluginConf → Except String α) :
    List PluginConf → List α × List String
  | [] => ([], [])
  | c :: cs =>
    let rest := loadPluginsLoop getProc cs
    match getProc c with
    | .ok p => (p :: rest.1, rest.2)
    | .error _ => (rest.1, ("Failed to load plugin: " ++ c.name) :: rest.2)

/-- `stac_generator.core.utils.load_plugins(conf, entry_point, conf_section)`:
reads the section from the configuration, loads each spec through the
`HandlerPicker` (abstracted as `getProc`; the `entry_point` argument only
parameterises that picker), and raises `NoPluginsError` naming the
section when nothing loaded.  The second component collects the
`LOGGER.error` messages emitted along the way. -/
def load_plugins {α : Type} (getProc : PluginConf → Except String α)
    (conf : List (String × List PluginConf)) (confSection : String) :
    Except LoadErr (List α) × List String :=
  match conf.lookup confSection with
  | Option.none => (.error (.keyError confSection), [])
  | some specs =>
    let res := loadPluginsLoop getProc specs
    if res.1.isEmpty then
      (.error (.noPlugins ("No plugins were successfully loaded from " ++ confSection)),
       res.2)
    else (.ok res.1, res.2)

/-! ### Heap model of `dict_merge` (observes in-place list mutation)

The pure model above computes the same result values as CPython on
tree-shaped inputs, but cannot express object identity.  `dict_merge`'s
list branch appends to `rtn_dct[k]` *in place*, and `rtn_dct` is only a
*shallow* copy of `args[0]`, so those appends hit list objects owned by
the input layers.  To settle the frame claim we repeat the embedding
with lists as mutable heap objects referenced by address.  Dict objects
stay pure values: every dict write in the code targets the freshly
copied accumulator (`rtn_dct` itself or a fresh result of the recursive
call), so no dict object is ever mutated in place. -/

/-- Values in the heap model: as `PVal`, but a list is a reference into
the heap. -/
inductive HVal : Type where
  | int (n : Int)
  | bool (b : Bool)
  | str (s : String)
  | pnone
  | listRef (addr : Nat)
  | dict (entries : List (String × HVal))
  deriving Repr

/-- A dict in the heap model. -/
abbrev HDict := List (String × HVal)

/-- The heap: list object contents indexed by address. -/
abbrev Heap := List (List HVal)

/-- Python truthiness in the heap model (a list dereferences). -/
def truthyH (heap : Heap) : HVal → Bool
  | .int n => n != 0
  | .bool b => b
  | .str s => s ≠ ""
  | .pnone => false
  | .listRef a => !(heap.getD a []).isEmpty
  | .dict entries => !entries.isEmpty

/-- `type(v)` in the heap model. -/
def typeOfH : HVal → PType
  | .int _ => .int
  | .bool _ => .bool
  | .str _ => .str
  | .pnone => .nonetype
  | .listRef _ => .list
  | .dict _ => .dict

/-- `isinstance(v, t)` in the heap model. -/
def isinstH (v : HVal) (t : PType) : Bool :=
  match t, v with
  | .int, .int _ => true
  | .int, .bool _ => true
  | .bool, .bool _ => true
  | .str, .str _ => true
  | .nonetype, .pnone => true
  | .list, .listRef _ => true
  | .dict, .dict _ => true
  | _, _ => false

/-- `d.get(k)` in the heap model. -/
def alookupH (d : HDict) (k : String) : Option HVal :=
  match d with
  | [] => Option.none
  | (k2, v) :: rest => if k = k2 then some v else alookupH rest k

/-- `d[k] = v` in the heap model. -/
def asetH (d : HDict) (k : String) (v : HVal) : HDict :=
  match d with
  | [] => [(k, v)]
  | (k2, w) :: rest => if k = k2 then (k2, v) :: rest else (k2, w) :: asetH rest k v

mutual

/-- Python `==` in the heap model: list references are dereferenced, so
the comparison is fuelled (object graphs through the heap are not
syntactically well-founded). -/
def pyEqH (heap : Heap) : Nat → HVal → HVal → Bool
  | 0, _, _ => false
  | fuel + 1, a, b =>
    match a, b with
    | .int m, .int n => m == n
    | .int m, .bool c => m == (if c then (1 : Int) else 0)
    | .bool c, .int n => (if c then (1 : Int) else 0) == n
    | .bool c, .bool d => c == d
    | .str s, .str t => s == t
    | .pnone, .pnone => true
    | .listRef x, .listRef y => pyEqListH heap fuel (heap.getD x []) (heap.getD y [])
    | .dict d, .dict e => d.length == e.length && pyEqEntriesH heap fuel d e
    | _, _ => false

/-- Pointwise `==` on dereferenced list contents. -/
def pyEqListH (heap : Heap) : Nat → List HVal → List HVal → Bool
  | _, [], [] => true
  | fuel, x :: xs, y :: ys => pyEqH heap fuel x y && pyEqListH heap fuel xs ys
  | _, _, _ => false

/-- Dict inclusion by key with `==`-equal values, in the heap model. -/
def pyEqEntriesH (heap : Heap) : Nat → HDict → HDict → Bool
  | _, [], _ => true
  | fuel, (k, v) :: rest, e => pyEqLookupH heap fuel k v e && pyEqEntriesH heap fuel rest e

/-- Key lookup plus `==` comparison, in the heap model. -/
def pyEqLookupH (heap : Heap) (fuel : Nat) (k : String) (v : HVal) : HDict → Bool
  | [] => false
  | (k2, w) :: rest => if k = k2 then pyEqH heap fuel v w else pyEqLookupH heap fuel k v rest

end

/-- Python `x in ys` in the heap model. -/
def pyInH (heap : Heap) (fuel : Nat) (x : HVal) (ys : List HVal) : Bool :=
  ys.any (fun y => pyEqH heap fuel x y)

mutual

/-- Structural size of a heap value (termination measure; list contents
live in the heap and do not count). -/
def hsize : HVal → Nat
  | .int _ | .bool _ | .str _ | .pnone | .listRef _ => 1
  | .dict entries => 1 + hsizeEntries entries

/-- Structural size of a heap dict entry list. -/
def hsizeEntries : HDict → Nat
  | [] => 1
  | (_, v) :: rest => 2 + hsize v + hsizeEntries rest

end

/-- Sum of the sizes of a list of heap dicts. -/
def sumSizesH (l : List HDict) : Nat := l.foldr (fun d n => hsizeEntries d + n) 0

theorem hsizeEntries_pos (l : HDict) : 1 ≤ hsizeEntries l := by
  cases l with
  | nil => simp [hsizeEntries]
  | cons x rest => cases x; simp [hsizeEntries]; omega

theorem hsizeEntries_filter_le (p : String × HVal → Bool) (l : HDict) :
    hsizeEntries (l.filter p) ≤ hsizeEntries l := by
  induction l with
  | nil => simp
  | cons x xs ih =>
    cases x with
    | mk k v =>
      cases hx : p (k, v) <;> simp [List.filter, hx, hsizeEntries] <;> omega

mutual

/-- The per-key merge action of the stac_generator `dict_merge` in the
heap model, for a truthy accumulator value.  `eqFuel` bounds the `==`
comparisons; the list-union branch appends to the accumulator's list
object *in place* (`rtn_dct[k].append(list_value)`), returning the same
reference. -/
def vmergeHS (eqFuel : Nat) (heap : Heap) (cur : HVal) (v : HVal) (addKeys : Bool) :
    Except PyErr (Heap × HVal) :=
  if !isinstH v (typeOfH cur) then
    match v, cur with
    | .listRef va, .listRef ca =>
      if pyInH heap eqFuel cur (heap.getD va []) then .ok (heap, v)
      else if pyInH heap eqFuel v (heap.getD ca []) then .ok (heap, cur)
      else .error .typeError
    | .listRef va, _ =>
      if pyInH heap eqFuel cur (heap.getD va []) then .ok (heap, v)
      else .error .typeError
    | _, .listRef ca =>
      if pyInH heap eqFuel v (heap.getD ca []) then .ok (heap, cur)
      else .error .typeError
    | _, _ => .error .typeError
  else
    match cur, v with
    | .dict cd, .dict vd =>
      (dictMergeHeapS eqFuel heap [cd, vd] addKeys).map (fun r => (r.1, .dict r.2))
    | .listRef ca, .listRef va =>
      let heap' := (heap.getD va []).foldl
        (fun h lv =>
          if pyInH h eqFuel lv (h.getD ca []) then h
          else h.set ca ((h.getD ca []) ++ [lv]))
        heap
      .ok (heap', .listRef ca)
    | _, _ =>
      match v with
      | .listRef _ => .error .typeError  -- unreachable, as in the pure model
      | _ => .ok (heap, v)
termination_by 8 * hsize v
decreasing_by
  simp [sumSizesH, hsize]
  omega

/-- The stac_generator `dict_merge` in the heap model. -/
def dictMergeHeapS (eqFuel : Nat) (heap : Heap) (args : List HDict) (addKeys : Bool) :
    Except PyErr (Heap × HDict) :=
  match args with
  | [] => .error .assertionError
  | [_] => .error .assertionError
  | a :: rest => mergeLayersHS eqFuel heap a rest addKeys
termination_by 8 * sumSizesH args.tail + 5
decreasing_by
  simp [sumSizesH]

/-- The layer loop of the stac_generator `dict_merge` in the heap model. -/
def mergeLayersHS (eqFuel : Nat) (heap : Heap) (acc : HDict) (layers : List HDict)
    (addKeys : Bool) : Except PyErr (Heap × HDict) :=
  match layers with
  | [] => .ok (heap, acc)
  | l :: ls =>
    let l' := if addKeys then l else l.filter (fun kv => (alookupH acc kv.1).isSome)
    match mergeEntriesHS eqFuel heap acc l' addKeys with
    | .error e => .error e
    | .ok (heap', acc') => mergeLayersHS eqFuel heap' acc' ls addKeys
termination_by 8 * sumSizesH layers + 4
decreasing_by
  · simp [sumSizesH]
    have h := hsizeEntries_filter_le (fun kv => (alookupH acc kv.1).isSome) l
    split <;> omega
  · simp [sumSizesH]
    have h1 := hsizeEntries_pos l
    omega

/-- The entry loop of the stac_generator `dict_merge` in the heap model. -/
def mergeEntriesHS (eqFuel : Nat) (heap : Heap) (acc : HDict)
    (entries : List (String × HVal)) (addKeys : Bool) : Except PyErr (Heap × HDict) :=
  match entries with
  | [] => .ok (heap, acc)
  | (k, v) :: rest =>
    match alookupH acc k with
    | Option.none => mergeEntriesHS eqFuel heap (asetH acc k v) rest addKeys
    | some cur =>
      if !truthyH heap cur then mergeEntriesHS eqFuel heap (asetH acc k v) rest addKeys
      else
        match vmergeHS eqFuel heap cur v addKeys with
        | .error e => .error e
        | .ok (heap', w) => mergeEntriesHS eqFuel heap' (asetH acc k w) rest addKeys
termination_by 8 * hsizeEntries entries + 2
decreasing_by
  all_goals simp [hsizeEntries]
  all_goals omega

end

/-! ### Characterization of the `nested_get` walk

`stepD`/`walkD` restate the loop's `dict_nest = dict_nest.get(key, {})`
step as a standalone recursion: a missing key yields the empty mapping,
a non-mapping value stops the walk. -/

/-- One `dict_nest.get(key, {})` step, demanding that the walk stays in
mappings (`none` when the stored value is not a mapping). -/
def stepD (d : PDict) (k : String) : Option PDict :=
  match alookup d k with
  | Option.none => some []
  | some (.dict d') => some d'
  | some _ => Option.none

/-- The walk of `nested_get` through a prefix of the key path. -/
def walkD (d : PDict) : List String → Option PDict
  | [] => some d
  | k :: ks =>
    match stepD d k with
    | some d' => walkD d' ks
    | Option.none => Option.none

/-! ### Theorems -/

theorem alookup_aset_self (d : PDict) (k : String) (v : PVal) :
    alookup (aset d k v) k = some v := by
  induction d with
  | nil => simp [aset, alookup]
  | cons kv rest ih =>
    cases kv with
    | mk k2 w =>
      by_cases hk : k = k2
      · subst hk; simp [aset, alookup]
      · simp [aset, alookup, hk, ih]

theorem alookup_aset_ne (d : PDict) (k k' : String) (v : PVal) (h : k' ≠ k) :
    alookup (aset d k v) k' = alookup d k' := by
  induction d with
  | nil => simp [aset, alookup, h]
  | cons kv rest ih =>
    cases kv with
    | mk k2 w =>
      by_cases hk : k = k2
      · subst hk
        simp [aset, alookup, h, if_neg (by exact h)]
      · by_cases hk' : k' = k2
        · subst hk'; simp [aset, alookup, hk]
        · simp [aset, alookup, hk, hk', ih]

theorem aset_same (d : PDict) (k : String) (v : PVal)
    (h : alookup d k = some v) : aset d k v = d := by
  induction d with
  | nil => simp [alookup] at h
  | cons kv rest ih =>
    cases kv with
    | mk k2 w =>
      by_cases hk : k = k2
      · subst hk
        have h' : w = v := by simpa [alookup] using h
        subst h'
        simp [aset]
      · simp only [alookup, if_neg hk] at h
        simp [aset, hk, ih h]

theorem alookup_eq_none_iff (d : PDict) (k : String) :
    alookup d k = Option.none ↔ k ∉ dkeys d := by
  induction d with
  | nil => simp [alookup, dkeys]
  | cons kv rest ih =>
    cases kv with
    | mk k2 w =>
      by_cases hk : k = k2
      · subst hk; simp [alookup, dkeys]
      · simpa [alookup, dkeys, hk] using ih

theorem mem_of_alookup_eq_some (d : PDict) (k : String) (v : PVal)
    (h : alookup d k = some v) : (k, v) ∈ d := by
  induction d with
  | nil => simp [alookup] at h
  | cons kv rest ih =>
    cases kv with
    | mk k2 w =>
      by_cases hk : k = k2
      · subst hk
        have h' : w = v := by simpa [alookup] using h
        subst h'
        simp
      · simp only [alookup, if_neg hk] at h
        exact List.mem_cons_of_mem _ (ih h)

theorem alookup_eq_some_of_mem (d : PDict) (k : String) (v : PVal)
    (hnodup : (dkeys d).Nodup) (h : (k, v) ∈ d) : alookup d k = some v := by
  induction d with
  | nil => simp at h
  | cons kv rest ih =>
    cases kv with
    | mk k2 w =>
      simp only [dkeys, List.map_cons, List.nodup_cons] at hnodup
      rcases List.mem_cons.mp h with h1 | h1
      · cases h1
        simp [alookup]
      · have hk : k ≠ k2 := by
          intro he
          subst he
          exact hnodup.1 (List.mem_map.mpr ⟨(k, v), h1, rfl⟩)
        simp only [alookup, if_neg hk]
        exact ih hnodup.2 h1

theorem dkeys_aset_mem (d : PDict) (k : String) (v : PVal)
    (h : k ∈ dkeys d) : dkeys (aset d k v) = dkeys d := by
  induction d with
  | nil => simp [dkeys] at h
  | cons kv rest ih =>
    cases kv with
    | mk k2 w =>
      by_cases hk : k = k2
      · subst hk; simp [aset, dkeys]
      · simp only [dkeys, List.map_cons, List.mem_cons] at h
        rcases h with h | h
        · exact absurd h hk
        · have hrec := ih h
          simp only [dkeys] at hrec
          simp [aset, dkeys, hk, hrec]

theorem dkeys_aset_not_mem (d : PDict) (k : String) (v : PVal)
    (h : k ∉ dkeys d) : dkeys (aset d k v) = dkeys d ++ [k] := by
  induction d with
  | nil => simp [aset, dkeys]
  | cons kv rest ih =>
    cases kv with
    | mk k2 w =>
      simp only [dkeys, List.map_cons, List.mem_cons] at h
      push_neg at h
      have hrec := ih h.2
      simp only [dkeys] at hrec
      simp [aset, dkeys, h.1, hrec]

/-- Claim C10: `nested_get` requires a non-empty key path — on an empty
key list it fails with an IndexError from `key_list[-1]` rather than
returning the absent-marker. -/
theorem c10_empty_key_list (d : PDict) :
    nestedGet [] d = .error .indexError := rfl

/-- The `nested_get` loop over a key path whose leading keys all differ
from the (value of the) last key follows the `walkD` walk and ends on
the final lookup. -/
theorem nestedGetLoop_walk (last : String) (ks : List String) :
    ∀ (d dfin : PDict), (∀ k ∈ ks, k ≠ last) → walkD d ks = some dfin →
      nestedGetLoop (.dict d) (ks ++ [last]) last = .ok (alookup dfin last) := by
  induction ks with
  | nil =>
    intro d dfin _ hwalk
    simp only [walkD, Option.some.injEq] at hwalk
    subst hwalk
    simp [nestedGetLoop]
  | cons k ks ih =>
    intro d dfin hne hwalk
    have hk : k ≠ last := hne k (by simp)
    simp only [walkD] at hwalk
    cases hstep : stepD d k with
    | none => rw [hstep] at hwalk; simp at hwalk
    | some d' =>
      rw [hstep] at hwalk
      simp only [stepD] at hstep
      simp only [List.cons_append, nestedGetLoop, if_pos hk]
      cases hl : alookup d k with
      | none =>
        rw [hl] at hstep
        simp only [Option.some.injEq] at hstep
        subst hstep
        simpa [hl] using ih [] dfin (fun x hx => hne x (by simp [hx])) hwalk
      | some w =>
        rw [hl] at hstep
        cases w with
        | dict dd =>
          simp only [Option.some.injEq] at hstep
          subst hstep
          simpa [hl] using ih dd dfin (fun x hx => hne x (by simp [hx])) hwalk
        | int n => simp at hstep
        | bool b => simp at hstep
        | str s => simp at hstep
        | pnone => simp at hstep
        | list l => simp at hstep

/-- Claim C4 fails as stated: `nested_get` compares each key against the
*value* of the last key and returns at the first match, so the key path
`["x", "y", "x"]` is answered by a top-level lookup of `"x"` instead of
the walk `x → y → x` (which would give `42`). -/
theorem c4_counterexample :
    nestedGet ["x", "y", "x"] [("x", .dict [("y", .dict [("x", .int 42)])])] =
      .ok (some (.dict [("y", .dict [("x", .int 42)])])) ∧
    PVal.dict [("y", PVal.dict [("x", PVal.int 42)])] ≠ PVal.int 42 :=
  ⟨rfl, by decide⟩

/-- Claim C4 (amended): for every non-empty key path in which no key
before the last equals the last key, `nested_get` walks the source
through all but the last key with `get`-with-empty-mapping-default (a
missing intermediate key yields the empty mapping, not an error), then
returns the final lookup of the last key — the absent-marker `None`
when it is not found — and raises nothing. -/
theorem c4_nested_get_amended (ks : List String) (last : String)
    (d dfin : PDict) (hne : ∀ k ∈ ks, k ≠ last)
    (hwalk : walkD d ks = some dfin) :
    nestedGet (ks ++ [last]) d = .ok (alookup dfin last) := by
  have hlast : (ks ++ [last]).getLast? = some last := by
    simp [List.getLast?_concat]
  simp only [nestedGet, hlast]
  exact nestedGetLoop_walk last ks d dfin hne hwalk

/-- Witness for C4 at the spec's own example
`nested_get(["a", "missing"], {"a": {}})`: the missing last key yields
the absent-marker, with no exception. -/
theorem c4_witness :
    (∀ k ∈ ["a"], k ≠ "missing") ∧
    nestedGet ["a", "missing"] [("a", PVal.dict [])] = .ok Option.none := by
  refine ⟨by decide, ?_⟩
  simpa using c4_nested_get_amended ["a"] "missing" [("a", PVal.dict [])] []
    (by decide) rfl

theorem string_mk_data (s : String) : String.mk s.data = s := by cases s; rfl

/-- The entry list of the single-branch nested mapping for a non-empty
segment list. -/
def singleEntries : List String → PVal → PDict
  | [], _ => []
  | s :: rest, v => [(s, nestedSingle rest v)]

theorem nestedSingle_cons (s : String) (rest : List String) (v : PVal) :
    nestedSingle (s :: rest) v = .dict [(s, nestedSingle rest v)] := rfl

theorem nestedSingle_entries (ss : List String) (v : PVal) (h : ss ≠ []) :
    nestedSingle ss v = .dict (singleEntries ss v) := by
  cases ss with
  | nil => exact absurd rfl h
  | cons s rest => rfl

theorem nestedSingle_append (l : List String) (last : String) (v : PVal) :
    nestedSingle (l ++ [last]) v = nestedSingle l (.dict [(last, v)]) := by
  simp [nestedSingle, List.foldr_append]

theorem pySplitCh_dotfree_elements (l : List Char) :
    ∀ p ∈ pySplitCh l, '.' ∉ p := by
  induction l with
  | nil =>
    intro p hp
    simp [pySplitCh] at hp
    simp [hp]
  | cons c cs ih =>
    intro p hp
    cases hs : pySplitCh cs with
    | nil => exact absurd hs (pySplitCh_ne_nil cs)
    | cons g gs =>
      have heq : pySplitCh (c :: cs) =
          if c = '.' then [] :: g :: gs else (c :: g) :: gs := by
        simp [pySplitCh, hs]
      rw [heq] at hp
      by_cases hc : c = '.'
      · rw [if_pos hc] at hp
        rcases List.mem_cons.mp hp with h1 | h1
        · simp [h1]
        · exact ih p (hs ▸ h1)
      · rw [if_neg hc] at hp
        rcases List.mem_cons.mp hp with h1 | h1
        · subst h1
          intro hmem
          rcases List.mem_cons.mp hmem with h2 | h2
          · exact hc h2.symm
          · exact ih g (hs ▸ List.mem_cons_self g gs) h2
        · exact ih p (hs ▸ List.mem_cons_of_mem g h1)

theorem pyJoinDot_pySplitDot (key : String) :
    pyJoinDot (pySplitDot key) = key := by
  simp only [pyJoinDot, pySplitDot, List.map_map]
  rw [show ((String.data ∘ String.mk) = (id : List Char → List Char)) from rfl]
  rw [List.map_id, pyJoinCh_pySplitCh, string_mk_data]

theorem pyJoinDot_single (s : String) : pyJoinDot [s] = s := by
  simp [pyJoinDot, pyJoinCh, string_mk_data]

/-- Unfolding of `dot2dict` for a non-empty key. -/
theorem dot2dict_cons (key : String) (v : PVal) (hk : ¬ key = "")
    (g : List Char) (gs : List (List Char)) (hsplit : pySplitCh key.data = g :: gs) :
    dot2dict key v = dot2dict (String.mk (pyJoinCh ((g :: gs).dropLast)))
      (.dict [(String.mk ((g :: gs).getLast (by simp)), v)]) := by
  rw [dot2dict.eq_def]
  rw [dif_neg hk]
  split
  · next heq => rw [hsplit] at heq; cases heq
  · next g' gs' heq =>
    rw [hsplit] at heq
    cases heq
    rfl

theorem dot2dict_empty (v : PVal) : dot2dict "" v = v := by simp [dot2dict]

/-- `dot2dict` on a join of dot-free non-empty segments builds the
single-branch nested mapping. -/
theorem dot2dict_join_segments (ss : List String) :
    ∀ v : PVal, ss ≠ [] → (∀ s ∈ ss, s ≠ "") → (∀ s ∈ ss, '.' ∉ s.data) →
      dot2dict (pyJoinDot ss) v = nestedSingle ss v := by
  induction ss using List.reverseRecOn with
  | nil => intro v h; exact absurd rfl h
  | append_singleton l last ih =>
    intro v _ hseg hdot
    cases l with
    | nil =>
      have hlast : last ≠ "" := hseg last (by simp)
      have hdl : '.' ∉ last.data := hdot last (by simp)
      have hkey : pyJoinDot [last] = last := pyJoinDot_single last
      simp only [List.nil_append] at *
      rw [hkey]
      have hsplit : pySplitCh last.data = [last.data] :=
        pySplitCh_dotfree last.data hdl
      rw [dot2dict_cons last v hlast last.data [] hsplit]
      simp only [List.dropLast_single, pyJoinCh, List.getLast_singleton]
      rw [string_mk_data]
      have : String.mk [] = "" := rfl
      rw [this, dot2dict_empty]
      rfl
    | cons s0 l' =>
      have hne2 : (s0 :: l') ++ [last] ≠ [] := by simp
      have hmapne : ((s0 :: l') ++ [last]).map String.data ≠ [] := by simp
      have hdotm : ∀ p ∈ ((s0 :: l') ++ [last]).map String.data, '.' ∉ p := by
        intro p hp
        rcases List.mem_map.mp hp with ⟨s, hs, rfl⟩
        exact hdot s hs
      have hsplitm : pySplitCh (pyJoinCh (((s0 :: l') ++ [last]).map String.data)) =
          ((s0 :: l') ++ [last]).map String.data :=
        pySplitCh_pyJoinCh _ hmapne hdotm
      have hdatakey : (pyJoinDot ((s0 :: l') ++ [last])).data =
          pyJoinCh (((s0 :: l') ++ [last]).map String.data) := rfl
      have hkey_ne : pyJoinDot ((s0 :: l') ++ [last]) ≠ "" := by
        intro h0
        have hd : (pyJoinDot ((s0 :: l') ++ [last])).data = [] := by rw [h0]
        rw [hdatakey] at hd
        rcases hr : l'.map String.data ++ [last.data] with _ | ⟨r0, rest2⟩
        · simp at hr
        · rw [show ((s0 :: l') ++ [last]).map String.data
              = s0.data :: (l'.map String.data ++ [last.data]) by simp, hr,
            pyJoinCh_cons] at hd
          simp at hd
      have hgs : ((s0 :: l') ++ [last]).map String.data =
          s0.data :: (l'.map String.data ++ [last.data]) := by simp
      have hsplit2 : pySplitCh (pyJoinDot ((s0 :: l') ++ [last])).data =
          s0.data :: (l'.map String.data ++ [last.data]) := by
        rw [hdatakey, hsplitm, hgs]
      rw [dot2dict_cons _ v hkey_ne _ _ hsplit2]
      have hdrop : (s0.data :: (l'.map String.data ++ [last.data])).dropLast
          = s0.data :: l'.map String.data := by
        rw [show s0.data :: (l'.map String.data ++ [last.data])
            = (s0.data :: l'.map String.data) ++ [last.data] by simp]
        exact List.dropLast_concat
      have hlastseg : (s0.data :: (l'.map String.data ++ [last.data])).getLast
          (by simp) = last.data := by
        have h1 : (s0.data :: (l'.map String.data ++ [last.data])).getLast?
            = some last.data := by
          rw [show s0.data :: (l'.map String.data ++ [last.data])
              = (s0.data :: l'.map String.data) ++ [last.data] by simp]
          exact List.getLast?_concat _
        have h2 := List.getLast?_eq_getLast
          (s0.data :: (l'.map String.data ++ [last.data])) (by simp)
        rw [h2] at h1
        exact Option.some.inj h1
      rw [hdrop, hlastseg, string_mk_data]
      have hjoin : (String.mk (pyJoinCh (s0.data :: l'.map String.data)) : String) =
          pyJoinDot (s0 :: l') := rfl
      rw [hjoin]
      rw [ih (.dict [(last, v)]) (by simp)
        (fun s hs => hseg s (List.mem_append_left _ hs))
        (fun s hs => hdot s (List.mem_append_left _ hs))]
      exact (nestedSingle_append (s0 :: l') last v).symm

theorem walkD_single (init : List String) (last : String) (v : PVal) :
    walkD (singleEntries (init ++ [last]) v) init = some (singleEntries [last] v) := by
  induction init generalizing v with
  | nil => simp [walkD]
  | cons s0 init' ih =>
    have hent : singleEntries ((s0 :: init') ++ [last]) v
        = [(s0, nestedSingle (init' ++ [last]) v)] := rfl
    rw [hent]
    have hstep : stepD [(s0, nestedSingle (init' ++ [last]) v)] s0
        = some (singleEntries (init' ++ [last]) v) := by
      simp [stepD, alookup, nestedSingle_entries (init' ++ [last]) v (by simp)]
    simp only [walkD, hstep]
    exact ih v

/-- Claim C8 fails as stated: for the key `"a.b.a"` (non-empty segments)
the `nested_get` of the produced single-branch mapping returns the
intermediate mapping found at the top-level `"a"` — the loop compares
each key against the value of the last key — not the stored leaf `5`. -/
theorem c8_counterexample :
    dot2dict "a.b.a" (.int 5) =
      .dict [("a", .dict [("b", .dict [("a", .int 5)])])] ∧
    nestedGet ["a", "b", "a"]
        [("a", PVal.dict [("b", PVal.dict [("a", PVal.int 5)])])] =
      .ok (some (.dict [("b", .dict [("a", .int 5)])])) ∧
    PVal.dict [("b", PVal.dict [("a", PVal.int 5)])] ≠ PVal.int 5 := by
  refine ⟨?_, rfl, by decide⟩
  simp [dot2dict, pySplitCh, pyJoinCh]

/-- Claim C8 (amended): for every dotted key string made of non-empty
segments *none of whose leading segments equals the last segment*, and
every value `v`, `dot2dict` produces the single-branch nested mapping
with `v` at the leaf named by the last segment, and `nested_get` applied
to the segment list of that mapping returns `v`. -/
theorem c8_round_trip_amended (key : String) (v : PVal)
    (init : List String) (last : String)
    (hsplit : pySplitDot key = init ++ [last])
    (hseg : ∀ s ∈ init ++ [last], s ≠ "")
    (hne : ∀ s ∈ init, s ≠ last) :
    dot2dict key v = nestedSingle (init ++ [last]) v ∧
    nestedGet (init ++ [last]) (singleEntries (init ++ [last]) v) =
      .ok (some v) := by
  constructor
  · have hkey : key = pyJoinDot (init ++ [last]) := by
      rw [← hsplit, pyJoinDot_pySplitDot]
    have hdot : ∀ s ∈ init ++ [last], '.' ∉ s.data := by
      intro s hs
      have hsmem : s ∈ pySplitDot key := hsplit ▸ hs
      rcases List.mem_map.mp hsmem with ⟨p, hp, rfl⟩
      have := pySplitCh_dotfree_elements key.data p hp
      simpa using this
    rw [hkey]
    exact dot2dict_join_segments (init ++ [last]) v (by simp) hseg hdot
  · have hwalk := walkD_single init last v
    have := nestedGetLoop_walk last init (singleEntries (init ++ [last]) v)
      (singleEntries [last] v) hne hwalk
    simp only [nestedGet, List.getLast?_concat]
    rw [this]
    simp [singleEntries, alookup, nestedSingle]

/-- Witness for C8 at the spec's example `dot2dict("a.b.c", 5)` and
`nested_get(["a","b","c"], ...)`. -/
theorem c8_witness :
    dot2dict "a.b.c" (.int 5) =
      .dict [("a", .dict [("b", .dict [("c", .int 5)])])] ∧
    nestedGet ["a", "b", "c"]
        [("a", PVal.dict [("b", PVal.dict [("c", PVal.int 5)])])] =
      .ok (some (.int 5)) := by
  have h := c8_round_trip_amended "a.b.c" (.int 5) ["a", "b"] "c"
    (by simp [pySplitDot, pySplitCh]) (by decide) (by decide)
  rcases h with ⟨h1, h2⟩
  constructor
  · simpa [nestedSingle] using h1
  · simpa [singleEntries, nestedSingle] using h2

theorem loadPluginsLoop_spec {α : Type} (getProc : PluginConf → Except String α)
    (specs : List PluginConf) :
    loadPluginsLoop getProc specs =
      (specs.filterMap (fun c => (getProc c).toOption),
       (specs.filter (fun c => !(getProc c).toOption.isSome)).map
         (fun c => "Failed to load plugin: " ++ c.name)) := by
  induction specs with
  | nil => rfl
  | cons c cs ih =>
    simp only [loadPluginsLoop, ih]
    cases h : getProc c <;>
      simp [h, Except.toOption, List.filterMap_cons, List.filter]

/-- Claim C3: for a configuration whose section holds an ordered
sequence of plugin specs, `load_plugins` returns exactly the instances
of the specs whose lookup-and-construction (`get_processor`) succeeded,
in original order; each failure is logged with the plugin's name and the
loop continues; if zero specs succeed it raises `NoPluginsError` naming
the section, and otherwise the returned list is the (non-empty) list of
successes. -/
theorem c3_load_plugins {α : Type} (getProc : PluginConf → Except String α)
    (conf : List (String × List PluginConf)) (confSection : String)
    (specs : List PluginConf) (hsec : conf.lookup confSection = some specs) :
    (load_plugins getProc conf confSection).1 =
      (if (specs.filterMap fun c => (getProc c).toOption).isEmpty then
        Except.error (LoadErr.noPlugins
          ("No plugins were successfully loaded from " ++ confSection))
      else Except.ok (specs.filterMap fun c => (getProc c).toOption)) ∧
    (load_plugins getProc conf confSection).2 =
      (specs.filter fun c => !(getProc c).toOption.isSome).map
        (fun c => "Failed to load plugin: " ++ c.name) := by
  simp only [load_plugins, hsec, loadPluginsLoop_spec]
  constructor
  · by_cases h : (specs.filterMap fun c => (getProc c).toOption).isEmpty <;>
      simp [h]
  · by_cases h : (specs.filterMap fun c => (getProc c).toOption).isEmpty <;>
      simp [h]

/-- Witness for C3 at the spec's scenario: three specs with the second
referencing an unregistered name yield a two-element list in original
order and exactly one logged failure. -/
theorem c3_witness :
    load_plugins
        (fun c => if c.name = "b" then Except.error "nope" else Except.ok c.name)
        [("sec", [⟨"a", []⟩, ⟨"b", []⟩, ⟨"c", []⟩])] "sec" =
      (.ok ["a", "c"], ["Failed to load plugin: b"]) := by
  have h := c3_load_plugins
    (fun c => if c.name = "b" then Except.error "nope" else Except.ok c.name)
    [("sec", [⟨"a", []⟩, ⟨"b", []⟩, ⟨"c", []⟩])] "sec"
    [⟨"a", []⟩, ⟨"b", []⟩, ⟨"c", []⟩] rfl
  rcases h with ⟨h1, h2⟩
  have : (load_plugins
      (fun c => if c.name = "b" then Except.error "nope" else Except.ok c.name)
      [("sec", [⟨"a", []⟩, ⟨"b", []⟩, ⟨"c", []⟩])] "sec") =
      ((load_plugins (fun c => if c.name = "b" then Except.error "nope"
          else Except.ok c.name)
        [("sec", [⟨"a", []⟩, ⟨"b", []⟩, ⟨"c", []⟩])] "sec").1,
       (load_plugins (fun c => if c.name = "b" then Except.error "nope"
          else Except.ok c.name)
        [("sec", [⟨"a", []⟩, ⟨"b", []⟩, ⟨"c", []⟩])] "sec").2) := rfl
  rw [this, h1, h2]
  simp [List.filterMap_cons, Except.toOption, List.filter]

/-- The elements of the incoming sequence kept by the list-union branch:
those not already present by `==`, in order of first appearance (an
element equal to an earlier kept one is dropped too). -/
def newElems (seen : List PVal) : List PVal → List PVal
  | [] => []
  | x :: xs => if pyIn x seen then newElems seen xs else x :: newElems (seen ++ [x]) xs

theorem unionPy_eq_append_newElems (vs cs : List PVal) :
    unionPy cs vs = cs ++ newElems cs vs := by
  induction vs generalizing cs with
  | nil => simp [unionPy, newElems]
  | cons x xs ih =>
    simp only [unionPy, List.foldl_cons, newElems]
    by_cases h : pyIn x cs = true
    · rw [if_pos h, if_pos h]
      exact ih cs
    · rw [if_neg h, if_neg h]
      have := ih (cs ++ [x])
      simp only [unionPy] at this
      rw [this, List.append_assoc]
      rfl

/-- Claim C7: for a key whose existing accumulator value is a truthy
sequence and whose incoming value is also a sequence, the merged value
is the accumulator's sequence in original order followed by each element
of the incoming sequence not already present by `==`-equality, in order
of first appearance, with no sorting; and the merge step stores exactly
that union. -/
theorem c7_list_union (acc : PDict) (k : String) (cs vs : List PVal)
    (rest : List (String × PVal)) (addKeys : Bool)
    (hcur : alookup acc k = some (.list cs)) (hne : cs ≠ []) :
    vmergeS (.list cs) (.list vs) addKeys = .ok (.list (unionPy cs vs)) ∧
    unionPy cs vs = cs ++ newElems cs vs ∧
    mergeEntriesS acc ((k, .list vs) :: rest) addKeys =
      mergeEntriesS (aset acc k (.list (unionPy cs vs))) rest addKeys := by
  have hv : vmergeS (.list cs) (.list vs) addKeys = .ok (.list (unionPy cs vs)) := by
    simp [vmergeS, isinst, typeOf]
  refine ⟨hv, unionPy_eq_append_newElems vs cs, ?_⟩
  have htr : truthy (.list cs) = true := by simp [truthy, hne]
  simp only [mergeEntriesS, hcur, htr, hv]
  rfl

/-- Witness for C7 at the spec's example:
`{"x": [1,2]}` merged with `{"x": [2,3]}` stores `[1,2,3]`. -/
theorem c7_witness :
    vmergeS (.list [.int 1, .int 2]) (.list [.int 2, .int 3]) true =
      .ok (.list [.int 1, .int 2, .int 3]) := by
  have h := c7_list_union [("x", PVal.list [.int 1, .int 2])] "x"
    [.int 1, .int 2] [.int 2, .int 3] [] true rfl (by decide)
  rw [h.1]
  simp [unionPy, pyIn, pyEq, pyEqList]

/-- Claim C2 is right and the code is wrong: `dict_merge` only
shallow-copies `args[0]` and its list branch appends in place, so
merging `{"x": [1]}` with `{"x": [2]}` appends `2` to the *first input
layer's* list object.  In the heap model: address 0 holds layer one's
list `[1]` before the call and `[1, 2]` after it, and the returned dict
shares that mutated object. -/
theorem c2_mutates_input_layer :
    dictMergeHeapS 100 [[HVal.int 1], [HVal.int 2]]
        [[("x", HVal.listRef 0)], [("x", HVal.listRef 1)]] true =
      .ok ([[HVal.int 1, HVal.int 2], [HVal.int 2]], [("x", HVal.listRef 0)]) := by
  simp [dictMergeHeapS, mergeLayersHS, mergeEntriesHS, vmergeHS, alookupH, truthyH,
    isinstH, typeOfH, pyInH, pyEqH, pyEqListH, asetH]

/-- Modelled from the spec: the claim's "general category (mapping vs.
sequence vs. scalar/other)" vocabulary, needed only to state the claim;
the code itself compares runtime types with `isinstance`. -/
inductive SpecCategory : Type where
  | mapping | sequence | scalar
  deriving Repr, DecidableEq

/-- Modelled from the spec: the general category of a value. -/
def specGeneralCategory : PVal → SpecCategory
  | .dict _ => .mapping
  | .list _ => .sequence
  | _ => .scalar

/-- Claim C1 fails as stated: merging `{"x": "a"}` with `{"x": 1}` has
two values of the *same* general category (both scalars), so the claim
predicts no type-conflict error, but the code tests
`isinstance(v, type(rtn_dct[k]))` — exact runtime types — and raises
TypeError. -/
theorem c1_counterexample :
    specGeneralCategory (.str "a") = specGeneralCategory (.int 1) ∧
    dictMergeStac [[("x", .str "a")], [("x", .int 1)]] true =
      .error .typeError := by
  constructor
  · rfl
  · simp [dictMergeStac, mergeLayersS, mergeEntriesS, vmergeS, alookup, truthy,
      isinst, typeOf]

theorem vmergeS_ok_of_isinst (cur v : PVal) (addKeys : Bool)
    (hnd : ¬(∃ cd vd, cur = PVal.dict cd ∧ v = PVal.dict vd))
    (hin : isinst v (typeOf cur) = true) :
    ∃ w, vmergeS cur v addKeys = .ok w := by
  cases cur with
  | int n =>
    cases v with
    | int m => exact ⟨.int m, by simp [vmergeS, isinst, typeOf]⟩
    | bool b => exact ⟨.bool b, by simp [vmergeS, isinst, typeOf]⟩
    | _ => simp [isinst, typeOf] at hin
  | bool b =>
    cases v with
    | bool c => exact ⟨.bool c, by simp [vmergeS, isinst, typeOf]⟩
    | _ => simp [isinst, typeOf] at hin
  | str s =>
    cases v with
    | str t => exact ⟨.str t, by simp [vmergeS, isinst, typeOf]⟩
    | _ => simp [isinst, typeOf] at hin
  | pnone =>
    cases v with
    | pnone => exact ⟨.pnone, by simp [vmergeS, isinst, typeOf]⟩
    | _ => simp [isinst, typeOf] at hin
  | list cs =>
    cases v with
    | list vs => exact ⟨.list (unionPy cs vs), by simp [vmergeS, isinst, typeOf]⟩
    | _ => simp [isinst, typeOf] at hin
  | dict cd =>
    cases v with
    | dict vd => exact absurd ⟨cd, vd, rfl, rfl⟩ hnd
    | _ => simp [isinst, typeOf] at hin

theorem vmergeS_mismatch (cur v : PVal) (addKeys : Bool)
    (hin : isinst v (typeOf cur) = false) :
    vmergeS cur v addKeys =
      match v, cur with
      | .list vs, .list cs =>
        if pyIn cur vs then .ok v
        else if pyIn v cs then .ok cur
        else .error .typeError
      | .list vs, _ => if pyIn cur vs then .ok v else .error .typeError
      | _, .list cs => if pyIn v cs then .ok cur else .error .typeError
      | _, _ => .error .typeError := by
  rw [vmergeS.eq_def, hin]
  simp only [Bool.not_false, if_true]
  cases v <;> cases cur <;> rfl

/-- When the `isinstance` test fails and neither containment
reconciliation applies, the merge step raises TypeError. -/
theorem vmergeS_conflict (cur v : PVal) (addKeys : Bool)
    (hin : isinst v (typeOf cur) = false)
    (hv : ¬(∃ vs, v = PVal.list vs ∧ pyIn cur vs = true))
    (hc : ¬(∃ cs, cur = PVal.list cs ∧ pyIn v cs = true)) :
    vmergeS cur v addKeys = .error .typeError := by
  rw [vmergeS_mismatch cur v addKeys hin]
  cases v with
  | list vs =>
    have hv' : pyIn cur vs = false := by
      cases h : pyIn cur vs
      · rfl
      · exact absurd ⟨vs, rfl, h⟩ hv
    cases cur with
    | list cs =>
      have hc' : pyIn (PVal.list vs) cs = false := by
        cases h : pyIn (PVal.list vs) cs
        · rfl
        · exact absurd ⟨cs, rfl, h⟩ hc
      simp [hv', hc']
    | int n => simp [hv']
    | bool b => simp [hv']
    | str s => simp [hv']
    | pnone => simp [hv']
    | dict d => simp [hv']
  | int n =>
    cases cur with
    | list cs =>
      have hc' : pyIn (PVal.int n) cs = false := by
        cases h : pyIn (PVal.int n) cs
        · rfl
        · exact absurd ⟨cs, rfl, h⟩ hc
      simp [hc']
    | _ => rfl
  | bool b =>
    cases cur with
    | list cs =>
      have hc' : pyIn (PVal.bool b) cs = false := by
        cases h : pyIn (PVal.bool b) cs
        · rfl
        · exact absurd ⟨cs, rfl, h⟩ hc
      simp [hc']
    | _ => rfl
  | str s =>
    cases cur with
    | list cs =>
      have hc' : pyIn (PVal.str s) cs = false := by
        cases h : pyIn (PVal.str s) cs
        · rfl
        · exact absurd ⟨cs, rfl, h⟩ hc
      simp [hc']
    | _ => rfl
  | pnone =>
    cases cur with
    | list cs =>
      have hc' : pyIn PVal.pnone cs = false := by
        cases h : pyIn PVal.pnone cs
        · rfl
        · exact absurd ⟨cs, rfl, h⟩ hc
      simp [hc']
    | _ => rfl
  | dict d =>
    cases cur with
    | list cs =>
      have hc' : pyIn (PVal.dict d) cs = false := by
        cases h : pyIn (PVal.dict d) cs
        · rfl
        · exact absurd ⟨cs, rfl, h⟩ hc
      simp [hc']
    | _ => rfl

/-- Claim C1 (amended): at a merge step whose accumulator value `cur` is
truthy and where the two values are not both mappings, the
stac_generator merge raises TypeError exactly when `v` is not an
instance of `cur`'s *runtime type* (Python `isinstance`, under which a
bool is an instance of int) and neither containment reconciliation
applies; when `v` is a sequence containing `cur` by `==`, `v` is
adopted; else when `cur` is a sequence containing `v`, the accumulator's
value is kept; and a step error aborts the entry loop with that very
error, so no partial result is returned. -/
theorem c1_type_conflict_amended (acc : PDict) (k : String) (v cur : PVal)
    (addKeys : Bool) (hcur : alookup acc k = some cur) (htr : truthy cur = true)
    (hnd : ¬(∃ cd vd, cur = PVal.dict cd ∧ v = PVal.dict vd)) :
    ((∃ e, vmergeS cur v addKeys = .error e) ↔
      (isinst v (typeOf cur) = false ∧
       ¬(∃ vs, v = PVal.list vs ∧ pyIn cur vs = true) ∧
       ¬(∃ cs, cur = PVal.list cs ∧ pyIn v cs = true))) ∧
    (∀ e, vmergeS cur v addKeys = .error e → e = .typeError) ∧
    (∀ vs, v = PVal.list vs → isinst v (typeOf cur) = false →
      pyIn cur vs = true → vmergeS cur v addKeys = .ok v) ∧
    (∀ cs, cur = PVal.list cs → isinst v (typeOf cur) = false →
      ¬(∃ vs, v = PVal.list vs ∧ pyIn cur vs = true) → pyIn v cs = true →
      vmergeS cur v addKeys = .ok cur) ∧
    (∀ e rest, vmergeS cur v addKeys = .error e →
      mergeEntriesS acc ((k, v) :: rest) addKeys = .error e) := by
  have hadopt : ∀ vs, v = PVal.list vs → isinst v (typeOf cur) = false →
      pyIn cur vs = true → vmergeS cur v addKeys = .ok v := by
    rintro vs rfl hin hmem
    rw [vmergeS_mismatch cur (.list vs) addKeys hin]
    cases cur <;> simp [hmem]
  have hkeep : ∀ cs, cur = PVal.list cs → isinst v (typeOf cur) = false →
      ¬(∃ vs, v = PVal.list vs ∧ pyIn cur vs = true) → pyIn v cs = true →
      vmergeS cur v addKeys = .ok cur := by
    rintro cs rfl hin hv hmem
    rw [vmergeS_mismatch (.list cs) v addKeys hin]
    cases v with
    | list vs =>
      have hv' : pyIn (PVal.list cs) vs = false := by
        cases h : pyIn (PVal.list cs) vs
        · rfl
        · exact absurd ⟨vs, rfl, h⟩ hv
      simp [hv', hmem]
    | int n => simp [hmem]
    | bool b => simp [hmem]
    | str s => simp [hmem]
    | pnone => simp [hmem]
    | dict d => simp [hmem]
  refine ⟨?_, ?_, hadopt, hkeep, ?_⟩
  · constructor
    · rintro ⟨e, he⟩
      by_cases hin : isinst v (typeOf cur) = true
      · rcases vmergeS_ok_of_isinst cur v addKeys hnd hin with ⟨w, hw⟩
        rw [hw] at he
        cases he
      · have hin' : isinst v (typeOf cur) = false := by
          cases h : isinst v (typeOf cur)
          · rfl
          · exact absurd h hin
        refine ⟨hin', ?_, ?_⟩
        · rintro ⟨vs, hveq, hmem⟩
          rw [hadopt vs hveq hin' hmem] at he
          cases he
        · rintro ⟨cs, hceq, hmem⟩
          by_cases hfirst : ∃ vs, v = PVal.list vs ∧ pyIn cur vs = true
          · rcases hfirst with ⟨vs, hveq, hmem2⟩
            rw [hadopt vs hveq hin' hmem2] at he
            cases he
          · rw [hkeep cs hceq hin' hfirst hmem] at he
            cases he
    · rintro ⟨hin, hv, hc⟩
      exact ⟨.typeError, vmergeS_conflict cur v addKeys hin hv hc⟩
  · intro e he
    by_cases hin : isinst v (typeOf cur) = true
    · rcases vmergeS_ok_of_isinst cur v addKeys hnd hin with ⟨w, hw⟩
      rw [hw] at he
      cases he
    · have hin' : isinst v (typeOf cur) = false := by
        cases h : isinst v (typeOf cur)
        · rfl
        · exact absurd h hin
      by_cases hA : ∃ vs, v = PVal.list vs ∧ pyIn cur vs = true
      · rcases hA with ⟨vs, hveq, hmem⟩
        rw [hadopt vs hveq hin' hmem] at he
        cases he
      · by_cases hB : ∃ cs, cur = PVal.list cs ∧ pyIn v cs = true
        · rcases hB with ⟨cs, hceq, hmem⟩
          rw [hkeep cs hceq hin' hA hmem] at he
          cases he
        · rw [vmergeS_conflict cur v addKeys hin' hA hB] at he
          injection he with h
          exact h.symm
  · intro e rest he
    simp only [mergeEntriesS, hcur, htr, he]
    rfl

/-- Witness for C1: merging an accumulator value `1` with an incoming
list `[1, 2]` is an `isinstance` mismatch reconciled by containment —
the sequence is adopted. -/
theorem c1_witness :
    vmergeS (.int 1) (.list [.int 1, .int 2]) true = .ok (.list [.int 1, .int 2]) := by
  have h := c1_type_conflict_amended [("x", .int 1)] "x"
    (.list [.int 1, .int 2]) (.int 1) true rfl (by simp [truthy])
    (by rintro ⟨cd, vd, h1, h2⟩; cases h1)
  exact h.2.2.1 [.int 1, .int 2] rfl (by simp [isinst, typeOf])
    (by simp [pyIn, pyEq])

theorem pyEqLookup_eq (k : String) (v : PVal) (e : PDict) :
    pyEqLookup k v e =
      match alookup e k with
      | some w => pyEq v w
      | Option.none => false := by
  induction e with
  | nil => simp [pyEqLookup, alookup]
  | cons kv rest ih =>
    cases kv with
    | mk k2 w =>
      by_cases hk : k = k2
      · subst hk; simp [pyEqLookup, alookup]
      · simp [pyEqLookup, alookup, hk, ih]

theorem pyEqList_refl_of (xs : List PVal) (h : ∀ x ∈ xs, pyEq x x = true) :
    pyEqList xs xs = true := by
  induction xs with
  | nil => simp [pyEqList]
  | cons x rest ih =>
    simp only [pyEqList, Bool.and_eq_true]
    exact ⟨h x (by simp), ih (fun y hy => h y (by simp [hy]))⟩

theorem pyEqEntries_of (d : PDict) :
    ∀ d1 : PDict, (∀ kv ∈ d1, pyEqLookup kv.1 kv.2 d = true) →
      pyEqEntries d1 d = true := by
  intro d1
  induction d1 with
  | nil => intro _; simp [pyEqEntries]
  | cons kv rest ih =>
    intro h
    cases kv with
    | mk k v =>
      simp only [pyEqEntries, Bool.and_eq_true]
      exact ⟨h (k, v) (by simp), ih (fun x hx => h x (by simp [hx]))⟩

theorem psize_lt_of_mem_list (x : PVal) (xs : List PVal) (h : x ∈ xs) :
    psize x < psizeList xs := by
  induction xs with
  | nil => simp at h
  | cons y rest ih =>
    rcases List.mem_cons.mp h with h1 | h1
    · subst h1; simp [psizeList]; omega
    · have := ih h1
      simp [psizeList]
      omega

theorem psize_lt_of_mem_entries (k : String) (v : PVal) (d : PDict)
    (h : (k, v) ∈ d) : psize v < psizeEntries d := by
  induction d with
  | nil => simp at h
  | cons kv rest ih =>
    cases kv with
    | mk k2 w =>
      rcases List.mem_cons.mp h with h1 | h1
      · cases h1; simp [psizeEntries]; omega
      · have := ih h1
        simp [psizeEntries]
        omega

theorem valWF_of_mem_list (xs : List PVal) (x : PVal)
    (hwf : listWFaux xs = true) (h : x ∈ xs) : valWF x = true := by
  induction xs with
  | nil => simp at h
  | cons y rest ih =>
    simp only [listWFaux, Bool.and_eq_true] at hwf
    rcases List.mem_cons.mp h with h1 | h1
    · subst h1; exact hwf.1
    · exact ih hwf.2 h1

theorem valWF_of_mem_entries (d : PDict) (k : String) (v : PVal)
    (hwf : dictWFaux d = true) (h : (k, v) ∈ d) : valWF v = true := by
  induction d with
  | nil => simp at h
  | cons kv rest ih =>
    cases kv with
    | mk k2 w =>
      simp only [dictWFaux, Bool.and_eq_true] at hwf
      rcases List.mem_cons.mp h with h1 | h1
      · cases h1; exact hwf.1
      · exact ih hwf.2 h1

theorem dictWF_parts (d : PDict) (h : dictWF d = true) :
    (dkeys d).Nodup ∧ dictWFaux d = true := by
  simpa [dictWF, valWF, Bool.and_eq_true, decide_eq_true_eq] using h

/-- Python `==` is reflexive on well-formed values. -/
theorem pyEq_refl_n : ∀ (n : Nat) (v : PVal), psize v ≤ n → valWF v = true →
    pyEq v v = true := by
  intro n
  induction n with
  | zero =>
    intro v h
    exact absurd (le_trans (psize_pos v) h) (by norm_num)
  | succ n ih =>
    intro v hsz hwf
    cases v with
    | int m => simp [pyEq]
    | bool b => simp [pyEq]
    | str s => simp [pyEq]
    | pnone => simp [pyEq]
    | list xs =>
      simp only [pyEq]
      refine pyEqList_refl_of xs (fun x hx => ?_)
      have h1 := psize_lt_of_mem_list x xs hx
      have h2 : psize (.list xs) ≤ n + 1 := hsz
      simp only [psize] at h2
      refine ih x (by omega) ?_
      exact valWF_of_mem_list xs x (by simpa [valWF] using hwf) hx
    | dict d =>
      simp only [pyEq, Bool.and_eq_true, beq_self_eq_true]
      refine ⟨by trivial, ?_⟩
      rcases dictWF_parts d hwf with ⟨hnodup, haux⟩
      refine pyEqEntries_of d d (fun kv hkv => ?_)
      cases kv with
      | mk k v =>
        rw [pyEqLookup_eq, alookup_eq_some_of_mem d k v hnodup hkv]
        have h1 := psize_lt_of_mem_entries k v d hkv
        have h2 : psize (.dict d) ≤ n + 1 := hsz
        simp only [psize] at h2
        exact ih v (by omega) (valWF_of_mem_entries d k v haux hkv)

theorem pyEq_refl (v : PVal) (hwf : valWF v = true) : pyEq v v = true :=
  pyEq_refl_n (psize v) v le_rfl hwf

theorem pyIn_of_mem (x : PVal) (xs : List PVal) (h : x ∈ xs)
    (hwf : valWF x = true) : pyIn x xs = true := by
  simp only [pyIn, List.any_eq_true]
  exact ⟨x, h, pyEq_refl x hwf⟩

theorem unionPy_no_new (cs vs : List PVal) (h : ∀ x ∈ vs, pyIn x cs = true) :
    unionPy cs vs = cs := by
  induction vs with
  | nil => simp [unionPy]
  | cons x rest ih =>
    simp only [unionPy, List.foldl_cons]
    rw [if_pos (h x (by simp))]
    exact ih (fun y hy => h y (by simp [hy]))

theorem dictMergeStac_pair_true (a b : PDict) :
    dictMergeStac [a, b] true =
      match mergeEntriesS a b true with
      | .error e => .error e
      | .ok acc' => .ok acc' := by
  cases h : mergeEntriesS a b true with
  | error e => simp [dictMergeStac, mergeLayersS, h]
  | ok acc' => simp [dictMergeStac, mergeLayersS, h]

/-- Merging a well-formed dict's own entries into itself is the
identity. -/
theorem mergeEntriesS_self : ∀ (n : Nat) (d : PDict), psizeEntries d ≤ n →
    dictWF d = true → ∀ es : List (String × PVal), (∀ kv ∈ es, kv ∈ d) →
      mergeEntriesS d es true = .ok d := by
  intro n
  induction n with
  | zero =>
    intro d h
    exact absurd (le_trans (psizeEntries_pos d) h) (by norm_num)
  | succ n ih =>
    intro d hsz hwf es
    rcases dictWF_parts d hwf with ⟨hnodup, haux⟩
    induction es with
    | nil => intro _; simp [mergeEntriesS]
    | cons kv rest ihes =>
      intro hmem
      cases kv with
      | mk k v =>
        have hvd : (k, v) ∈ d := hmem (k, v) (by simp)
        have hlook : alookup d k = some v := alookup_eq_some_of_mem d k v hnodup hvd
        have hset : aset d k v = d := aset_same d k v hlook
        have hwfv : valWF v = true := valWF_of_mem_entries d k v haux hvd
        have hrest : ∀ kv ∈ rest, kv ∈ d := fun x hx => hmem x (by simp [hx])
        by_cases htr : truthy v = true
        · have hv : vmergeS v v true = .ok v := by
            cases v with
            | int m => simp [vmergeS, isinst, typeOf]
            | bool b => simp [vmergeS, isinst, typeOf]
            | str s => simp [vmergeS, isinst, typeOf]
            | pnone => simp [truthy] at htr
            | list xs =>
              have hxs : ∀ x ∈ xs, pyIn x xs = true := fun x hx =>
                pyIn_of_mem x xs hx
                  (valWF_of_mem_list xs x (by simpa [valWF] using hwfv) hx)
              simp [vmergeS, isinst, typeOf, unionPy_no_new xs xs hxs]
            | dict vd =>
              have h1 := psize_lt_of_mem_entries k (.dict vd) d hvd
              simp only [psize] at h1
              have hm : mergeEntriesS vd vd true = .ok vd :=
                ih vd (by omega) hwfv vd (fun x hx => hx)
              simp [vmergeS, isinst, typeOf, dictMergeStac_pair_true, hm,
                Except.map]
          simp only [mergeEntriesS, hlook, htr, Bool.not_true, hv]
          rw [hset]
          exact ihes hrest
        · have htr' : truthy v = false := by
            cases h : truthy v
            · rfl
            · exact absurd h htr
          simp only [mergeEntriesS, hlook, htr', Bool.not_false]
          rw [hset]
          exact ihes hrest

/-- Claim C5: merging two identical (well-formed) layers is idempotent:
`dict_merge(x, x) == x` — the result is structurally the very dict `x`,
which in particular is `==`-equal to it. -/
theorem c5_idempotent (d : PDict) (hwf : dictWF d = true) :
    dictMergeStac [d, d] true = .ok d := by
  rw [dictMergeStac_pair_true,
    mergeEntriesS_self (psizeEntries d) d le_rfl hwf d (fun kv h => h)]

/-- Witness for C5 on a concrete layer with a scalar, a list and a
nested mapping. -/
theorem c5_witness :
    dictWF [("a", PVal.int 1), ("b", PVal.list [.int 2, .str "s"]),
      ("c", PVal.dict [("d", PVal.bool true)])] = true ∧
    dictMergeStac
        [[("a", PVal.int 1), ("b", PVal.list [.int 2, .str "s"]),
          ("c", PVal.dict [("d", PVal.bool true)])],
         [("a", PVal.int 1), ("b", PVal.list [.int 2, .str "s"]),
          ("c", PVal.dict [("d", PVal.bool true)])]] true =
      .ok [("a", PVal.int 1), ("b", PVal.list [.int 2, .str "s"]),
        ("c", PVal.dict [("d", PVal.bool true)])] := by
  have hwf : dictWF [("a", PVal.int 1), ("b", PVal.list [.int 2, .str "s"]),
      ("c", PVal.dict [("d", PVal.bool true)])] = true := by
    simp [dictWF, valWF, listWFaux, dictWFaux, dkeys]
  exact ⟨hwf, c5_idempotent _ hwf⟩

theorem isinst_typeOf_self (v : PVal) : isinst v (typeOf v) = true := by
  cases v <;> rfl

/-- Wherever the asset_scanner merge succeeds, the stac_generator merge
takes the very same branches (its only divergence, the reconciliation
branch, is guarded by an `isinstance` test that cannot fire when the
exact types agree) and returns the same value. -/
theorem asset_refines_n : ∀ n : Nat,
    (∀ cur v addKeys w, 8 * psize v ≤ n →
      vmergeA cur v addKeys = .ok w → vmergeS cur v addKeys = .ok w) ∧
    (∀ args addKeys r, 8 * sumSizes args.tail + 5 ≤ n →
      dictMergeAsset args addKeys = .ok r → dictMergeStac args addKeys = .ok r) ∧
    (∀ acc layers addKeys r, 8 * sumSizes layers + 4 ≤ n →
      mergeLayersA acc layers addKeys = .ok r →
      mergeLayersS acc layers addKeys = .ok r) ∧
    (∀ acc entries addKeys r, 8 * psizeEntries entries + 2 ≤ n →
      mergeEntriesA acc entries addKeys = .ok r →
      mergeEntriesS acc entries addKeys = .ok r) := by
  intro n
  induction n with
  | zero =>
    refine ⟨?_, ?_, ?_, ?_⟩
    · intro cur v ak w hsz
      have := psize_pos v
      omega
    · intro args ak r hsz
      omega
    · intro acc layers ak r hsz
      omega
    · intro acc entries ak r hsz
      have := psizeEntries_pos entries
      omega
  | succ n ih =>
    obtain ⟨ihV, ihD, ihL, ihE⟩ := ih
    refine ⟨?_, ?_, ?_, ?_⟩
    · intro cur v ak w hsz hA
      rw [vmergeA.eq_def] at hA
      by_cases hty : typeOf v = typeOf cur
      · have hne : (typeOf v != typeOf cur) = false := by simp [hty]
        rw [hne] at hA
        simp only [Bool.false_eq_true, if_false] at hA
        have hinst : isinst v (typeOf cur) = true := by
          rw [← hty]; exact isinst_typeOf_self v
        rw [vmergeS.eq_def]
        have hni : (!isinst v (typeOf cur)) = false := by simp [hinst]
        rw [hni]
        simp only [Bool.false_eq_true, if_false]
        cases cur <;> cases v <;>
          first
            | (simp [typeOf] at hty; done)
            | exact hA
            | skip
        rename_i cd vd
        have hA' : Except.map PVal.dict (dictMergeAsset [cd, vd] ak) =
            Except.ok w := hA
        show Except.map PVal.dict (dictMergeStac [cd, vd] ak) = Except.ok w
        cases hDM : dictMergeAsset [cd, vd] ak with
          | error e => rw [hDM] at hA'; simp [Except.map] at hA'
          | ok r' =>
            rw [hDM] at hA'
            simp only [Except.map] at hA'
            have hsz2 : 8 * sumSizes [cd, vd].tail + 5 ≤ n := by
              simp only [psize] at hsz
              simp only [sumSizes, List.tail_cons, List.foldr]
              omega
            rw [ihD [cd, vd] ak r' hsz2 hDM]
            simpa [Except.map] using hA'
      · have hne : (typeOf v != typeOf cur) = true := by simp [hty]
        rw [hne] at hA
        simp at hA
    · intro args ak r hsz hA
      cases args with
      | nil => simp [dictMergeAsset] at hA
      | cons a rest =>
        cases rest with
        | nil => simp [dictMergeAsset] at hA
        | cons b rest2 =>
          have hA' : mergeLayersA a (b :: rest2) ak = .ok r := by
            simpa [dictMergeAsset] using hA
          have hsz2 : 8 * sumSizes (b :: rest2) + 4 ≤ n := by
            simp only [List.tail_cons] at hsz
            omega
          have := ihL a (b :: rest2) ak r hsz2 hA'
          simpa [dictMergeStac] using this
    · intro acc layers ak r hsz hA
      cases layers with
      | nil =>
        simp only [mergeLayersA] at hA
        simpa [mergeLayersS] using hA
      | cons l ls =>
        rw [mergeLayersA.eq_def] at hA
        rw [mergeLayersS.eq_def]
        simp only at hA ⊢
        cases hE : mergeEntriesA acc
            (if ak then l else l.filter fun kv => (alookup acc kv.1).isSome) ak with
        | error e => rw [hE] at hA; simp at hA
        | ok acc' =>
          rw [hE] at hA
          simp only at hA
          have hfil := psizeEntries_filter_le
            (fun kv => (alookup acc kv.1).isSome) l
          have hlpos := psizeEntries_pos l
          have hsz1 : 8 * psizeEntries
              (if ak then l else l.filter fun kv => (alookup acc kv.1).isSome) + 2
              ≤ n := by
            simp only [sumSizes, List.foldr] at hsz
            cases ak
            · rw [if_neg (show ¬(false = true) by simp)]
              omega
            · rw [if_pos rfl]
              omega
          have hsz2 : 8 * sumSizes ls + 4 ≤ n := by
            simp only [sumSizes, List.foldr] at hsz ⊢
            omega
          rw [ihE acc _ ak acc' hsz1 hE]
          exact ihL acc' ls ak r hsz2 hA
    · intro acc entries ak r hsz hA
      cases entries with
      | nil =>
        simp only [mergeEntriesA] at hA
        simpa [mergeEntriesS] using hA
      | cons kv rest =>
        cases kv with
        | mk k v =>
          have hszv : 8 * psize v ≤ n := by
            simp only [psizeEntries] at hsz
            omega
          have hszr : 8 * psizeEntries rest + 2 ≤ n := by
            simp only [psizeEntries] at hsz
            have := psize_pos v
            omega
          rw [mergeEntriesA.eq_def] at hA
          rw [mergeEntriesS.eq_def]
          simp only at hA ⊢
          cases hl : alookup acc k with
          | none =>
            rw [hl] at hA
            simp only at hA ⊢
            exact ihE (aset acc k v) rest ak r hszr hA
          | some cur =>
            rw [hl] at hA
            simp only at hA ⊢
            by_cases htr : truthy cur = true
            · have hnt : (!truthy cur) = false := by simp [htr]
              rw [hnt] at hA
              rw [hnt]
              simp only [Bool.false_eq_true, if_false] at hA ⊢
              cases hV : vmergeA cur v ak with
              | error e => rw [hV] at hA; simp at hA
              | ok w =>
                rw [hV] at hA
                simp only at hA
                rw [ihV cur v ak w hszv hV]
                exact ihE (aset acc k w) rest ak r hszr hA
            · have hnt : (!truthy cur) = true := by
                cases h : truthy cur
                · rfl
                · exact absurd h htr
              rw [hnt] at hA
              rw [hnt]
              simp only [if_true] at hA ⊢
              exact ihE (aset acc k v) rest ak r hszr hA

/-- Claim C9 fails as stated: the two `dict_merge` implementations are
not extensionally equal — on `dict_merge({"x": [1]}, {"x": 1})` the
stac_generator variant reconciles by containment and keeps `[1]`, while
the asset_scanner variant raises TypeError on the exact-type mismatch. -/
theorem c9_counterexample :
    dictMergeStac [[("x", .list [.int 1])], [("x", .int 1)]] true =
      .ok [("x", .list [.int 1])] ∧
    dictMergeAsset [[("x", .list [.int 1])], [("x", .int 1)]] true =
      .error .typeError := by
  constructor
  · simp [dictMergeStac, mergeLayersS, mergeEntriesS, vmergeS, alookup, truthy,
      isinst, typeOf, pyIn, pyEq, aset]
  · simp [dictMergeAsset, mergeLayersA, mergeEntriesA, vmergeA, alookup, truthy,
      typeOf]

/-- Claim C9 (amended): the asset_scanner `dict_merge` refines the
stac_generator one — for every sequence of input layers and either
`add_keys` setting, whenever the asset_scanner variant returns a result
the stac_generator variant returns the equal result (the converse fails:
the stac_generator variant accepts reconciliation inputs on which the
asset_scanner variant raises). -/
theorem c9_refinement_amended (args : List PDict) (addKeys : Bool) (r : PDict)
    (h : dictMergeAsset args addKeys = .ok r) :
    dictMergeStac args addKeys = .ok r :=
  (asset_refines_n (8 * sumSizes args.tail + 5)).2.1 args addKeys r le_rfl h

/-- Witness for C9: a merge that succeeds in both variants, with equal
results. -/
theorem c9_witness :
    dictMergeStac [[("x", PVal.int 1)], [("x", PVal.int 2)]] true =
      .ok [("x", PVal.int 2)] :=
  c9_refinement_amended _ _ _ (by
    simp [dictMergeAsset, mergeLayersA, mergeEntriesA, vmergeA, alookup, truthy,
      typeOf, aset])

/-! ### Transitivity of Python `==` and list-union lemmas -/

/-- The numeric value of an int or bool (`True == 1` in Python). -/
def numv : PVal → Option Int
  | .int n => some n
  | .bool b => some (if b then 1 else 0)
  | _ => Option.none

theorem pyEq_numv (a b : PVal) (m n : Int) (ha : numv a = some m)
    (hb : numv b = some n) : (pyEq a b = true ↔ m = n) := by
  cases a with
  | int p =>
    simp only [numv, Option.some.injEq] at ha
    subst ha
    cases b with
    | int q =>
      simp only [numv, Option.some.injEq] at hb
      subst hb
      simp [pyEq]
    | bool c =>
      simp only [numv, Option.some.injEq] at hb
      subst hb
      simp [pyEq]
    | str s => simp [numv] at hb
    | pnone => simp [numv] at hb
    | list l => simp [numv] at hb
    | dict d => simp [numv] at hb
  | bool cb =>
    simp only [numv, Option.some.injEq] at ha
    subst ha
    cases b with
    | int q =>
      simp only [numv, Option.some.injEq] at hb
      subst hb
      simp [pyEq]
    | bool c =>
      simp only [numv, Option.some.injEq] at hb
      subst hb
      constructor
      · intro h
        simp only [pyEq, beq_iff_eq] at h
        subst h
        rfl
      · intro h
        simp only [pyEq, beq_iff_eq]
        cases cb <;> cases c <;> simp_all
    | str s => simp [numv] at hb
    | pnone => simp [numv] at hb
    | list l => simp [numv] at hb
    | dict d => simp [numv] at hb
  | str s => simp [numv] at ha
  | pnone => simp [numv] at ha
  | list l => simp [numv] at ha
  | dict d => simp [numv] at ha

theorem pyEqEntries_forall (d e : PDict) (h : pyEqEntries d e = true) :
    ∀ kv ∈ d, pyEqLookup kv.1 kv.2 e = true := by
  induction d with
  | nil => intro kv hkv; simp at hkv
  | cons x rest ih =>
    cases x with
    | mk k v =>
      simp only [pyEqEntries, Bool.and_eq_true] at h
      intro kv hkv
      rcases List.mem_cons.mp hkv with h1 | h1
      · subst h1; exact h.1
      · exact ih h.2 kv h1

theorem alookup_eq_some_iff_aux (d : PDict) (k : String) (w : PVal)
    (h : alookup d k = some w) : (k, w) ∈ d := mem_of_alookup_eq_some d k w h

theorem pyEqList_trans_aux : ∀ (xs ys zs : List PVal),
    (∀ x ∈ xs, ∀ y ∈ ys, ∀ z ∈ zs,
      pyEq x y = true → pyEq y z = true → pyEq x z = true) →
    pyEqList xs ys = true → pyEqList ys zs = true → pyEqList xs zs = true := by
  intro xs
  induction xs with
  | nil =>
    intro ys zs _ h1 h2
    cases ys with
    | nil => cases zs with
      | nil => exact h1
      | cons z zs => simp [pyEqList] at h2
    | cons y ys => simp [pyEqList] at h1
  | cons x xs ih =>
    intro ys zs helem h1 h2
    cases ys with
    | nil => simp [pyEqList] at h1
    | cons y ys =>
      cases zs with
      | nil => simp [pyEqList] at h2
      | cons z zs =>
        simp only [pyEqList, Bool.and_eq_true] at h1 h2 ⊢
        refine ⟨helem x (by simp) y (by simp) z (by simp) h1.1 h2.1, ?_⟩
        exact ih ys zs
          (fun x hx y hy z hz => helem x (by simp [hx]) y (by simp [hy]) z
            (by simp [hz]))
          h1.2 h2.2

theorem pyEqEntries_trans_aux (d e f : PDict)
    (helem : ∀ kv ∈ d, ∀ kw ∈ e, ∀ ku ∈ f,
      pyEq kv.2 kw.2 = true → pyEq kw.2 ku.2 = true → pyEq kv.2 ku.2 = true)
    (h1 : pyEqEntries d e = true) (h2 : pyEqEntries e f = true) :
    pyEqEntries d f = true := by
  induction d with
  | nil => simp [pyEqEntries]
  | cons x rest ih =>
    cases x with
    | mk k v =>
      simp only [pyEqEntries, Bool.and_eq_true] at h1 ⊢
      refine ⟨?_, ih (fun kv hkv => helem kv (by simp [hkv])) h1.2⟩
      have hl1 := h1.1
      rw [pyEqLookup_eq] at hl1
      cases hw : alookup e k with
      | none => rw [hw] at hl1; simp at hl1
      | some w =>
        rw [hw] at hl1
        have hmemw : (k, w) ∈ e := mem_of_alookup_eq_some e k w hw
        have hl2 := pyEqEntries_forall e f h2 (k, w) hmemw
        rw [pyEqLookup_eq] at hl2 ⊢
        cases hu : alookup f k with
        | none => rw [hu] at hl2; simp at hl2
        | some u =>
          rw [hu] at hl2
          have hmemu : (k, u) ∈ f := mem_of_alookup_eq_some f k u hu
          exact helem (k, v) (by simp) (k, w) hmemw (k, u) hmemu hl1 hl2

/-- Python `==` is transitive on the modelled values. -/
theorem pyEq_trans_n : ∀ n : Nat, ∀ a b c : PVal,
    psize a + psize b + psize c ≤ n → pyEq a b = true → pyEq b c = true →
    pyEq a c = true := by
  intro n
  induction n with
  | zero =>
    intro a b c hsz
    have := psize_pos a
    have := psize_pos b
    have := psize_pos c
    omega
  | succ n ih =>
    intro a b c hsz hab hbc
    cases b with
    | int m =>
      have hna : (numv a).isSome := by
        cases a <;> simp [pyEq] at hab ⊢ <;> simp [numv]
      have hnc : (numv c).isSome := by
        cases c <;> simp [pyEq] at hbc ⊢ <;> simp [numv]
      rcases Option.isSome_iff_exists.mp hna with ⟨p, hp⟩
      rcases Option.isSome_iff_exists.mp hnc with ⟨q, hq⟩
      have h1 := (pyEq_numv a (.int m) p m hp rfl).mp hab
      have h2 := (pyEq_numv (.int m) c m q rfl hq).mp hbc
      exact (pyEq_numv a c p q hp hq).mpr (h1.trans h2)
    | bool bb =>
      have hna : (numv a).isSome := by
        cases a <;> simp [pyEq] at hab ⊢ <;> simp [numv]
      have hnc : (numv c).isSome := by
        cases c <;> simp [pyEq] at hbc ⊢ <;> simp [numv]
      rcases Option.isSome_iff_exists.mp hna with ⟨p, hp⟩
      rcases Option.isSome_iff_exists.mp hnc with ⟨q, hq⟩
      have h1 := (pyEq_numv a (.bool bb) p (if bb then 1 else 0) hp rfl).mp hab
      have h2 := (pyEq_numv (.bool bb) c (if bb then 1 else 0) q rfl hq).mp hbc
      exact (pyEq_numv a c p q hp hq).mpr (h1.trans h2)
    | str s =>
      cases a with
      | str sa =>
        cases c with
        | str sc =>
          simp only [pyEq, beq_iff_eq] at hab hbc ⊢
          exact hab.trans hbc
        | int q => simp [pyEq] at hbc
        | bool q => simp [pyEq] at hbc
        | pnone => simp [pyEq] at hbc
        | list l => simp [pyEq] at hbc
        | dict d => simp [pyEq] at hbc
      | int q => simp [pyEq] at hab
      | bool q => simp [pyEq] at hab
      | pnone => simp [pyEq] at hab
      | list l => simp [pyEq] at hab
      | dict d => simp [pyEq] at hab
    | pnone =>
      cases a with
      | pnone =>
        cases c with
        | pnone => exact hab
        | int q => simp [pyEq] at hbc
        | bool q => simp [pyEq] at hbc
        | str sq => simp [pyEq] at hbc
        | list l => simp [pyEq] at hbc
        | dict d => simp [pyEq] at hbc
      | int q => simp [pyEq] at hab
      | bool q => simp [pyEq] at hab
      | str sq => simp [pyEq] at hab
      | list l => simp [pyEq] at hab
      | dict d => simp [pyEq] at hab
    | list ys =>
      cases a with
      | list xs =>
        cases c with
        | list zs =>
          simp only [pyEq] at hab hbc ⊢
          refine pyEqList_trans_aux xs ys zs (fun x hx y hy z hz h1 h2 => ?_)
            hab hbc
          have s1 := psize_lt_of_mem_list x xs hx
          have s2 := psize_lt_of_mem_list y ys hy
          have s3 := psize_lt_of_mem_list z zs hz
          simp only [psize] at hsz
          exact ih x y z (by omega) h1 h2
        | _ => simp [pyEq] at hbc
      | _ => simp [pyEq] at hab
    | dict e =>
      cases a with
      | dict d =>
        cases c with
        | dict f =>
          simp only [pyEq, Bool.and_eq_true] at hab hbc ⊢
          refine ⟨?_, ?_⟩
          · have l1 := hab.1
            have l2 := hbc.1
            simp only [beq_iff_eq] at l1 l2 ⊢
            omega
          · refine pyEqEntries_trans_aux d e f
              (fun kv hkv kw hkw ku hku h1 h2 => ?_) hab.2 hbc.2
            have s1 := psize_lt_of_mem_entries kv.1 kv.2 d (by
              cases kv; exact hkv)
            have s2 := psize_lt_of_mem_entries kw.1 kw.2 e (by
              cases kw; exact hkw)
            have s3 := psize_lt_of_mem_entries ku.1 ku.2 f (by
              cases ku; exact hku)
            simp only [psize] at hsz
            exact ih kv.2 kw.2 ku.2 (by omega) h1 h2
        | _ => simp [pyEq] at hbc
      | _ => simp [pyEq] at hab

theorem pyEq_trans (a b c : PVal) (h1 : pyEq a b = true) (h2 : pyEq b c = true) :
    pyEq a c = true :=
  pyEq_trans_n (psize a + psize b + psize c) a b c le_rfl h1 h2

theorem pyIn_append_single (y : PVal) (l : List PVal) (x : PVal) :
    pyIn y (l ++ [x]) = (pyIn y l || pyEq y x) := by
  simp [pyIn, List.any_append]

theorem pyIn_trans (x y : PVal) (l : List PVal) (hxy : pyEq x y = true)
    (hy : pyIn y l = true) : pyIn x l = true := by
  simp only [pyIn, List.any_eq_true] at hy ⊢
  rcases hy with ⟨z, hz, hyz⟩
  exact ⟨z, hz, pyEq_trans x y z hxy hyz⟩

theorem pyIn_unionPy (x : PVal) (vs : List PVal) : ∀ cs : List PVal,
    pyIn x (unionPy cs vs) = (pyIn x cs || pyIn x vs) := by
  induction vs with
  | nil => intro cs; simp [unionPy, pyIn]
  | cons v vs ih =>
    intro cs
    simp only [unionPy, List.foldl_cons]
    by_cases hv : pyIn v cs = true
    · rw [if_pos hv]
      have := ih cs
      simp only [unionPy] at this
      rw [this]
      simp only [pyIn, List.any_cons]
      by_cases hxv : pyEq x v = true
      · have : pyIn x cs = true := pyIn_trans x v cs hxv hv
        simp only [pyIn] at this
        simp [this, hxv]
      · have hxv' : pyEq x v = false := by
          cases h : pyEq x v
          · rfl
          · exact absurd h hxv
        simp [hxv']
    · rw [if_neg hv]
      have := ih (cs ++ [v])
      simp only [unionPy] at this
      rw [this]
      have h2 := pyIn_append_single x cs v
      rw [h2]
      simp only [pyIn, List.any_cons]
      cases pyIn x cs <;> cases pyEq x v <;> simp [pyIn]

theorem unionPy_append (cs vs ws : List PVal) :
    unionPy cs (vs ++ ws) = unionPy (unionPy cs vs) ws := by
  simp [unionPy, List.foldl_append]

theorem unionPy_congr_newElems : ∀ (ws seen acc : List PVal),
    (∀ x : PVal, pyIn x seen = true → pyIn x acc = true) →
    unionPy acc (newElems seen ws) = unionPy acc ws := by
  intro ws
  induction ws with
  | nil => intro seen acc _; rfl
  | cons x ws ih =>
    intro seen acc hsub
    simp only [newElems, unionPy, List.foldl_cons]
    by_cases hx : pyIn x seen = true
    · rw [if_pos hx]
      have hxa : pyIn x acc = true := hsub x hx
      rw [if_pos hxa]
      exact ih seen acc hsub
    · rw [if_neg hx]
      simp only [unionPy, List.foldl_cons]
      set acc' := if pyIn x acc = true then acc else acc ++ [x] with hacc'
      refine ih (seen ++ [x]) acc' (fun y hy => ?_)
      rw [pyIn_append_single] at hy
      rcases Bool.or_eq_true_iff.mp hy with hy1 | hy1
      · have hya := hsub y hy1
        rw [hacc']
        by_cases hxa : pyIn x acc = true
        · simpa [hxa] using hya
        · rw [if_neg hxa, pyIn_append_single, hya]
          rfl
      · rw [hacc']
        by_cases hxa : pyIn x acc = true
        · rw [if_pos hxa]
          exact pyIn_trans y x acc hy1 hxa
        · rw [if_neg hxa, pyIn_append_single, hy1]
          simp

theorem unionPy_assoc (cs vs ws : List PVal) :
    unionPy (unionPy cs vs) ws = unionPy cs (unionPy vs ws) := by
  rw [unionPy_eq_append_newElems ws vs, unionPy_append]
  exact (unionPy_congr_newElems ws vs (unionPy cs vs)
    (fun x hx => by rw [pyIn_unionPy]; simp [hx])).symm

/-! ### Per-key characterization of the entry loop (`add_keys=True`) -/

/-- The action of one iteration of the entry loop on the value stored at
its key: a missing or falsy accumulator value is overwritten by `v` as
is, a truthy one goes through the per-key merge. -/
def vstep (cur? : Option PVal) (v : PVal) : Except PyErr PVal :=
  match cur? with
  | Option.none => .ok v
  | some cur => if !truthy cur then .ok v else vmergeS cur v true

theorem mE_cons (acc : PDict) (k : String) (v : PVal)
    (rest : List (String × PVal)) :
    mergeEntriesS acc ((k, v) :: rest) true =
      match vstep (alookup acc k) v with
      | .error e => .error e
      | .ok w => mergeEntriesS (aset acc k w) rest true := by
  rw [mergeEntriesS.eq_def]
  simp only
  cases hl : alookup acc k with
  | none => simp [vstep]
  | some cur =>
    simp only [vstep]
    by_cases htr : truthy cur = true
    · have hnt : (!truthy cur) = false := by simp [htr]
      rw [hnt]
      simp only [Bool.false_eq_true, if_false]
    · have hnt : (!truthy cur) = true := by
        cases h : truthy cur
        · rfl
        · exact absurd h htr
      rw [hnt]
      simp

/-- What the entry loop does, key by key, for a duplicate-free layer:
each layer key holds the `vstep` of the accumulator's value with the
layer's value, all other keys are untouched, and the new keys are
appended in layer order. -/
theorem mE_spec : ∀ (es : List (String × PVal)) (acc d : PDict),
    (dkeys es).Nodup → mergeEntriesS acc es true = .ok d →
    (∀ k v, alookup es k = some v →
      ∃ w, vstep (alookup acc k) v = .ok w ∧ alookup d k = some w) ∧
    (∀ k, alookup es k = Option.none → alookup d k = alookup acc k) ∧
    dkeys d = dkeys acc ++ (dkeys es).filter (fun k => (alookup acc k).isNone) := by
  intro es
  induction es with
  | nil =>
    intro acc d _ h
    have hd : acc = d := by simpa [mergeEntriesS] using h
    subst hd
    refine ⟨?_, ?_, ?_⟩
    · intro k v hkv; simp [alookup] at hkv
    · intro k _; rfl
    · simp [dkeys]
  | cons kv rest ih =>
    intro acc d hnodup h
    cases kv with
    | mk k v =>
      have hknr : k ∉ dkeys rest := by
        simp only [dkeys, List.map_cons, List.nodup_cons] at hnodup
        exact hnodup.1
      have hnr : (dkeys rest).Nodup := by
        simp only [dkeys, List.map_cons, List.nodup_cons] at hnodup
        exact hnodup.2
      rw [mE_cons] at h
      cases hw : vstep (alookup acc k) v with
      | error e => rw [hw] at h; simp at h
      | ok w =>
        rw [hw] at h
        simp only at h
        rcases ih (aset acc k w) d hnr h with ⟨P1, P2, P3⟩
        refine ⟨?_, ?_, ?_⟩
        · intro k' v' hk'
          by_cases hkk : k' = k
          · subst hkk
            have hv' : v = v' := by simpa [alookup] using hk'
            subst hv'
            have hnone : alookup rest k' = Option.none :=
              (alookup_eq_none_iff rest k').mpr hknr
            have := P2 k' hnone
            rw [alookup_aset_self] at this
            exact ⟨w, hw, this⟩
          · simp only [alookup, if_neg hkk] at hk'
            rcases P1 k' v' hk' with ⟨w', hw', hd'⟩
            rw [alookup_aset_ne acc k k' w hkk] at hw'
            exact ⟨w', hw', hd'⟩
        · intro k' hk'
          have hkk : k' ≠ k := by
            intro he
            subst he
            simp [alookup] at hk'
          simp only [alookup, if_neg hkk] at hk'
          have := P2 k' hk'
          rwa [alookup_aset_ne acc k k' w hkk] at this
        · rw [P3]
          have hfc : (dkeys rest).filter
              (fun k' => (alookup (aset acc k w) k').isNone) =
              (dkeys rest).filter (fun k' => (alookup acc k').isNone) := by
            refine List.filter_congr (fun k' hk' => ?_)
            have hkk : k' ≠ k := fun he => hknr (he ▸ hk')
            rw [alookup_aset_ne acc k k' w hkk]
          rw [hfc]
          by_cases hmem : k ∈ dkeys acc
          · have h1 : dkeys (aset acc k w) = dkeys acc := dkeys_aset_mem acc k w hmem
            have h2 : (alookup acc k).isNone = false := by
              cases hl : alookup acc k
              · exact absurd ((alookup_eq_none_iff acc k).mp hl) (by simpa using hmem)
              · rfl
            rw [h1]
            simp only [dkeys, List.map_cons, List.filter_cons, h2]
            rfl
          · have h1 : dkeys (aset acc k w) = dkeys acc ++ [k] :=
              dkeys_aset_not_mem acc k w hmem
            have h2 : (alookup acc k).isNone = true := by
              rw [Option.isNone_iff_eq_none, alookup_eq_none_iff]
              exact hmem
            rw [h1]
            simp only [dkeys, List.map_cons, List.filter_cons, h2]
            simp

theorem isNone_alookup_iff (d : PDict) (k : String) :
    (alookup d k).isNone = true ↔ k ∉ dkeys d := by
  rw [Option.isNone_iff_eq_none, alookup_eq_none_iff]

/-- In a merged dict, a key is absent exactly when it is absent from
both sides. -/
theorem alookup_none_merge (a b ab : PDict)
    (hkeys : dkeys ab = dkeys a ++ (dkeys b).filter
      (fun k => (alookup a k).isNone)) (k : String) :
    (alookup ab k).isNone = ((alookup a k).isNone && (alookup b k).isNone) := by
  by_cases ha : k ∈ dkeys a
  · have h1 : (alookup a k).isNone = false := by
      cases h : (alookup a k).isNone
      · rfl
      · exact absurd ((isNone_alookup_iff a k).mp h) (by simpa using ha)
    have h2 : k ∈ dkeys ab := by
      rw [hkeys]
      exact List.mem_append_left _ ha
    have h3 : (alookup ab k).isNone = false := by
      cases h : (alookup ab k).isNone
      · rfl
      · exact absurd ((isNone_alookup_iff ab k).mp h) (by simpa using h2)
    rw [h1, h3, Bool.false_and]
  · have h1 : (alookup a k).isNone = true := (isNone_alookup_iff a k).mpr ha
    by_cases hb : k ∈ dkeys b
    · have h2 : k ∈ dkeys ab := by
        rw [hkeys]
        refine List.mem_append_right _ (List.mem_filter.mpr ⟨hb, ?_⟩)
        exact h1
      have h3 : (alookup ab k).isNone = false := by
        cases h : (alookup ab k).isNone
        · rfl
        · exact absurd ((isNone_alookup_iff ab k).mp h) (by simpa using h2)
      have h4 : (alookup b k).isNone = false := by
        cases h : (alookup b k).isNone
        · rfl
        · exact absurd ((isNone_alookup_iff b k).mp h) (by simpa using hb)
      rw [h3, h4, h1, Bool.true_and]
    · have h4 : (alookup b k).isNone = true := (isNone_alookup_iff b k).mpr hb
      have h2 : k ∉ dkeys ab := by
        rw [hkeys]
        intro hmem
        rcases List.mem_append.mp hmem with hm | hm
        · exact ha hm
        · exact hb (List.mem_filter.mp hm).1
      have h3 : (alookup ab k).isNone = true := (isNone_alookup_iff ab k).mpr h2
      rw [h1, h3, h4, Bool.true_and]

/-- A merged dict's keys stay duplicate-free. -/
theorem nodup_merge_keys (a b ab : PDict)
    (hkeys : dkeys ab = dkeys a ++ (dkeys b).filter
      (fun k => (alookup a k).isNone))
    (na : (dkeys a).Nodup) (nb : (dkeys b).Nodup) : (dkeys ab).Nodup := by
  rw [hkeys, List.nodup_append]
  refine ⟨na, nb.filter _, ?_⟩
  intro x hx hx2
  have := (List.mem_filter.mp hx2).2
  exact absurd hx (by simpa using (isNone_alookup_iff a x).mp (by simpa using this))

/-- Association lists with equal duplicate-free key sequences and equal
lookups are equal. -/
theorem pdict_ext : ∀ (d1 d2 : PDict), dkeys d1 = dkeys d2 →
    (dkeys d1).Nodup → (∀ k, alookup d1 k = alookup d2 k) → d1 = d2 := by
  intro d1
  induction d1 with
  | nil =>
    intro d2 hk _ _
    cases d2 with
    | nil => rfl
    | cons x rest => simp [dkeys] at hk
  | cons x rest ih =>
    intro d2 hk hnodup hl
    cases x with
    | mk k v =>
      cases d2 with
      | nil => simp [dkeys] at hk
      | cons y rest2 =>
        cases y with
        | mk k2 w =>
          simp only [dkeys, List.map_cons, List.cons.injEq] at hk
          have hkk : k = k2 := hk.1
          subst hkk
          have hv : v = w := by
            have := hl k
            simpa [alookup] using this
          subst hv
          simp only [dkeys, List.map_cons, List.nodup_cons] at hnodup
          have hrest : rest = rest2 := by
            refine ih rest2 hk.2 hnodup.2 (fun k' => ?_)
            by_cases hkk : k' = k
            · subst hkk
              have h1 : alookup rest k' = Option.none :=
                (alookup_eq_none_iff rest k').mpr hnodup.1
              have h2 : alookup rest2 k' = Option.none := by
                rw [alookup_eq_none_iff]
                simp only [dkeys]
                rw [← hk.2]
                exact hnodup.1
              rw [h1, h2]
            · have := hl k'
              simpa [alookup, hkk] using this
          rw [hrest]

/-- Size of an optional accumulator value. -/
def osize : Option PVal → Nat
  | Option.none => 0
  | some u => psize u

/-- Well-formedness of an optional accumulator value. -/
def owf : Option PVal → Bool
  | Option.none => true
  | some u => valWF u

theorem aset_ne_nil (d : PDict) (k : String) (v : PVal) : aset d k v ≠ [] := by
  cases d with
  | nil => simp [aset]
  | cons kv rest =>
    cases kv with
    | mk k2 w =>
      by_cases h : k = k2 <;> simp [aset, h]

theorem mE_ne_nil : ∀ (es : List (String × PVal)) (acc d : PDict),
    mergeEntriesS acc es true = .ok d → acc ≠ [] → d ≠ [] := by
  intro es
  induction es with
  | nil =>
    intro acc d h hacc
    have : acc = d := by simpa [mergeEntriesS] using h
    exact this ▸ hacc
  | cons kv rest ih =>
    intro acc d h hacc
    cases kv with
    | mk k v =>
      rw [mE_cons] at h
      cases hw : vstep (alookup acc k) v with
      | error e => rw [hw] at h; simp at h
      | ok w =>
        rw [hw] at h
        simp only at h
        exact ih (aset acc k w) d h (aset_ne_nil acc k w)

/-- A truthy scalar accumulator value lets any successfully merged
incoming value through unchanged. -/
theorem vmergeS_scalar_acc (u z w : PVal)
    (hts : typeOf u = PType.int ∨ typeOf u = PType.bool ∨
      typeOf u = PType.str ∨ typeOf u = PType.nonetype)
    (h : vmergeS u z true = .ok w) : w = z := by
  cases u with
  | list cs => simp [typeOf] at hts
  | dict cd => simp [typeOf] at hts
  | int n =>
    cases z with
    | list zs =>
      rw [vmergeS_mismatch _ _ _ (by simp [isinst, typeOf])] at h
      simp only at h
      split at h
      · exact (Except.ok.inj h).symm
      · exact absurd h (by simp)
    | int m =>
      simp [vmergeS, isinst, typeOf] at h
      exact h.symm
    | bool b =>
      simp [vmergeS, isinst, typeOf] at h
      exact h.symm
    | str s => simp [vmergeS, isinst, typeOf] at h
    | pnone => simp [vmergeS, isinst, typeOf] at h
    | dict d => simp [vmergeS, isinst, typeOf] at h
  | bool cb =>
    cases z with
    | list zs =>
      rw [vmergeS_mismatch _ _ _ (by simp [isinst, typeOf])] at h
      simp only at h
      split at h
      · exact (Except.ok.inj h).symm
      · exact absurd h (by simp)
    | bool b =>
      simp [vmergeS, isinst, typeOf] at h
      exact h.symm
    | int m => simp [vmergeS, isinst, typeOf] at h
    | str s => simp [vmergeS, isinst, typeOf] at h
    | pnone => simp [vmergeS, isinst, typeOf] at h
    | dict d => simp [vmergeS, isinst, typeOf] at h
  | str s =>
    cases z with
    | list zs =>
      rw [vmergeS_mismatch _ _ _ (by simp [isinst, typeOf])] at h
      simp only at h
      split at h
      · exact (Except.ok.inj h).symm
      · exact absurd h (by simp)
    | str t =>
      simp [vmergeS, isinst, typeOf] at h
      exact h.symm
    | int m => simp [vmergeS, isinst, typeOf] at h
    | bool b => simp [vmergeS, isinst, typeOf] at h
    | pnone => simp [vmergeS, isinst, typeOf] at h
    | dict d => simp [vmergeS, isinst, typeOf] at h
  | pnone =>
    cases z with
    | list zs =>
      rw [vmergeS_mismatch _ _ _ (by simp [isinst, typeOf])] at h
      simp only at h
      split at h
      · exact (Except.ok.inj h).symm
      · exact absurd h (by simp)
    | pnone =>
      simp [vmergeS, isinst, typeOf] at h
      exact h.symm
    | int m => simp [vmergeS, isinst, typeOf] at h
    | bool b => simp [vmergeS, isinst, typeOf] at h
    | str t => simp [vmergeS, isinst, typeOf] at h
    | dict d => simp [vmergeS, isinst, typeOf] at h

/-- Outcomes of the per-key merge with a list accumulator value. -/
theorem vmergeS_list_acc (cs : List PVal) (z w : PVal)
    (h : vmergeS (.list cs) z true = .ok w) :
    (∃ zs, z = .list zs ∧ w = .list (unionPy cs zs)) ∨
    ((¬∃ zs, z = .list zs) ∧ pyIn z cs = true ∧ w = .list cs) := by
  cases z with
  | list zs =>
    left
    refine ⟨zs, rfl, ?_⟩
    simp [vmergeS, isinst, typeOf] at h
    exact h.symm
  | int n =>
    right
    rw [vmergeS_mismatch _ _ _ (by simp [isinst, typeOf])] at h
    simp only at h
    split at h
    · next hc => exact ⟨(by rintro ⟨zs, hzs⟩; cases hzs), hc, (Except.ok.inj h).symm⟩
    · exact absurd h (by simp)
  | bool b =>
    right
    rw [vmergeS_mismatch _ _ _ (by simp [isinst, typeOf])] at h
    simp only at h
    split at h
    · next hc => exact ⟨(by rintro ⟨zs, hzs⟩; cases hzs), hc, (Except.ok.inj h).symm⟩
    · exact absurd h (by simp)
  | str s =>
    right
    rw [vmergeS_mismatch _ _ _ (by simp [isinst, typeOf])] at h
    simp only at h
    split at h
    · next hc => exact ⟨(by rintro ⟨zs, hzs⟩; cases hzs), hc, (Except.ok.inj h).symm⟩
    · exact absurd h (by simp)
  | pnone =>
    right
    rw [vmergeS_mismatch _ _ _ (by simp [isinst, typeOf])] at h
    simp only at h
    split at h
    · next hc => exact ⟨(by rintro ⟨zs, hzs⟩; cases hzs), hc, (Except.ok.inj h).symm⟩
    · exact absurd h (by simp)
  | dict d =>
    right
    rw [vmergeS_mismatch _ _ _ (by simp [isinst, typeOf])] at h
    simp only at h
    split at h
    · next hc => exact ⟨(by rintro ⟨zs, hzs⟩; cases hzs), hc, (Except.ok.inj h).symm⟩
    · exact absurd h (by simp)

/-- Outcomes of the per-key merge with a dict accumulator value. -/
theorem vmergeS_dict_acc (cd : PDict) (z w : PVal)
    (h : vmergeS (.dict cd) z true = .ok w) :
    (∃ zd rd, z = .dict zd ∧ mergeEntriesS cd zd true = .ok rd ∧ w = .dict rd) ∨
    (∃ zs, z = .list zs ∧ pyIn (.dict cd) zs = true ∧ w = z) := by
  cases z with
  | dict zd =>
    left
    refine ⟨zd, ?_⟩
    have he : vmergeS (.dict cd) (.dict zd) true =
        (dictMergeStac [cd, zd] true).map PVal.dict := by
      simp [vmergeS, isinst, typeOf]
    rw [he, dictMergeStac_pair_true] at h
    cases hm : mergeEntriesS cd zd true with
    | error e => rw [hm] at h; simp [Except.map] at h
    | ok rd =>
      rw [hm] at h
      simp only [Except.map] at h
      exact ⟨rd, rfl, rfl, (Except.ok.inj h).symm⟩
  | list zs =>
    right
    rw [vmergeS_mismatch _ _ _ (by simp [isinst, typeOf])] at h
    simp only at h
    split at h
    · next hc => exact ⟨zs, rfl, hc, (Except.ok.inj h).symm⟩
    · exact absurd h (by simp)
  | int n =>
    rw [vmergeS_mismatch _ _ _ (by simp [isinst, typeOf])] at h
    simp only at h
    exact absurd h (by simp)
  | bool b =>
    rw [vmergeS_mismatch _ _ _ (by simp [isinst, typeOf])] at h
    simp only at h
    exact absurd h (by simp)
  | str s =>
    rw [vmergeS_mismatch _ _ _ (by simp [isinst, typeOf])] at h
    simp only at h
    exact absurd h (by simp)
  | pnone =>
    rw [vmergeS_mismatch _ _ _ (by simp [isinst, typeOf])] at h
    simp only at h
    exact absurd h (by simp)

theorem dictMergeStac_pair_ok (a b d : PDict) :
    dictMergeStac [a, b] true = .ok d ↔ mergeEntriesS a b true = .ok d := by
  rw [dictMergeStac_pair_true]
  cases h : mergeEntriesS a b true <;> simp

theorem dictMergeStac_triple (a b c ab abc : PDict)
    (h1 : mergeEntriesS a b true = .ok ab)
    (h2 : mergeEntriesS ab c true = .ok abc) :
    dictMergeStac [a, b, c] true = .ok abc := by
  simp [dictMergeStac, mergeLayersS, h1, h2]

theorem vstep_none (v : PVal) : vstep Option.none v = .ok v := rfl

theorem vstep_falsy (u v : PVal) (h : truthy u = false) :
    vstep (some u) v = .ok v := by simp [vstep, h]

theorem vstep_truthy (u v : PVal) (h : truthy u = true) :
    vstep (some u) v = vmergeS u v true := by simp [vstep, h]

/-- Value-level associativity of the per-key merge action, bounded by a
size budget. -/
def VAat (n : Nat) : Prop :=
  ∀ (uo : Option PVal) (vb vc x y z w : PVal),
    osize uo + psize vb + psize vc ≤ n →
    owf uo = true → valWF vb = true → valWF vc = true →
    vstep uo vb = .ok x → vstep (some x) vc = .ok y →
    vstep (some vb) vc = .ok z → vstep uo z = .ok w → y = w

/-- Dict-level associativity of the entry loop, bounded by a size
budget. -/
def DAat (n : Nat) : Prop :=
  ∀ (a b c ab abc bc abc2 : PDict),
    psizeEntries a + psizeEntries b + psizeEntries c ≤ n →
    dictWF a = true → dictWF b = true → dictWF c = true →
    mergeEntriesS a b true = .ok ab →
    mergeEntriesS ab c true = .ok abc →
    mergeEntriesS b c true = .ok bc →
    mergeEntriesS a bc true = .ok abc2 →
    abc = abc2

theorem va_succ (n : Nat) (ihDA : DAat n) : VAat (n + 1) := by
  intro uo vb vc x y z w hsz hwfu hwfb hwfc h1 h2 h3 h4
  cases uo with
  | none =>
    rw [vstep_none] at h1 h4
    have hx := Except.ok.inj h1
    have hw := Except.ok.inj h4
    subst hx
    rw [h2] at h3
    exact (Except.ok.inj h3).trans hw
  | some u =>
    by_cases htu : truthy u = true
    · rw [vstep_truthy u vb htu] at h1
      rw [vstep_truthy u z htu] at h4
      cases u with
      | int nn =>
        have hx : x = vb := vmergeS_scalar_acc _ vb x (by simp [typeOf]) h1
        subst hx
        rw [h2] at h3
        have hwz : w = z := vmergeS_scalar_acc _ z w (by simp [typeOf]) h4
        rw [Except.ok.inj h3, hwz]
      | bool bb =>
        have hx : x = vb := vmergeS_scalar_acc _ vb x (by simp [typeOf]) h1
        subst hx
        rw [h2] at h3
        have hwz : w = z := vmergeS_scalar_acc _ z w (by simp [typeOf]) h4
        rw [Except.ok.inj h3, hwz]
      | str ss =>
        have hx : x = vb := vmergeS_scalar_acc _ vb x (by simp [typeOf]) h1
        subst hx
        rw [h2] at h3
        have hwz : w = z := vmergeS_scalar_acc _ z w (by simp [typeOf]) h4
        rw [Except.ok.inj h3, hwz]
      | pnone =>
        have hx : x = vb := vmergeS_scalar_acc _ vb x (by simp [typeOf]) h1
        subst hx
        rw [h2] at h3
        have hwz : w = z := vmergeS_scalar_acc _ z w (by simp [typeOf]) h4
        rw [Except.ok.inj h3, hwz]
      | list cs =>
        have hcs : cs ≠ [] := by
          intro hnil; rw [hnil] at htu; simp [truthy] at htu
        rcases vmergeS_list_acc cs vb x h1 with ⟨vbs, rfl, rfl⟩ | ⟨hnotl, hin, rfl⟩
        · -- an incoming list was unioned into the accumulator's list
          have hxne : unionPy cs vbs ≠ [] := by
            rw [unionPy_eq_append_newElems]
            intro hh
            exact hcs (List.append_eq_nil.mp hh).1
          have htx : truthy (PVal.list (unionPy cs vbs)) = true := by
            cases he : unionPy cs vbs with
            | nil => exact absurd he hxne
            | cons aa ll => simp [truthy]
          rw [vstep_truthy _ _ htx] at h2
          by_cases htb : truthy (PVal.list vbs) = true
          · rw [vstep_truthy _ _ htb] at h3
            rcases vmergeS_list_acc vbs vc z h3 with ⟨vcs, rfl, rfl⟩ | ⟨hnl2, hin2, rfl⟩
            · have hw : w = PVal.list (unionPy cs (unionPy vbs vcs)) := by
                rcases vmergeS_list_acc cs _ w h4 with ⟨zs, hzz, rfl⟩ | ⟨hnl3, _, _⟩
                · injection hzz with hz; rw [← hz]
                · exact absurd ⟨_, rfl⟩ hnl3
              have hy : y = PVal.list (unionPy (unionPy cs vbs) vcs) := by
                rcases vmergeS_list_acc _ _ y h2 with ⟨zs, hzz, rfl⟩ | ⟨hnl3, _, _⟩
                · injection hzz with hz; rw [← hz]
                · exact absurd ⟨_, rfl⟩ hnl3
              rw [hy, hw, unionPy_assoc]
            · have hw : w = PVal.list (unionPy cs vbs) := by
                rcases vmergeS_list_acc cs _ w h4 with ⟨zs, hzz, rfl⟩ | ⟨hnl3, _, _⟩
                · injection hzz with hz; rw [← hz]
                · exact absurd ⟨_, rfl⟩ hnl3
              have hy : y = PVal.list (unionPy cs vbs) := by
                rcases vmergeS_list_acc _ vc y h2 with ⟨zs, hzz, _⟩ | ⟨_, _, rfl⟩
                · exact absurd ⟨zs, hzz⟩ hnl2
                · rfl
              rw [hy, hw]
          · have hvbs : vbs = [] := by
              cases vbs with
              | nil => rfl
              | cons aa ll => exact absurd (by simp [truthy]) htb
            subst hvbs
            rw [vstep_falsy _ _ (by simp [truthy])] at h3
            have hz := Except.ok.inj h3
            subst hz
            have hcse : unionPy cs [] = cs := rfl
            rw [hcse] at h2
            rw [h2] at h4
            exact Except.ok.inj h4
        · -- the accumulator's list contained the incoming value and was kept
          rw [vstep_truthy _ _ htu] at h2
          by_cases htb : truthy vb = true
          · rw [vstep_truthy _ _ htb] at h3
            cases vb with
            | list l => exact absurd ⟨l, rfl⟩ hnotl
            | dict vbd =>
              rcases vmergeS_dict_acc vbd vc z h3 with ⟨zd, rd, rfl, hmm, rfl⟩ | ⟨vcs, rfl, hin2, rfl⟩
              · have hw : w = PVal.list cs := by
                  rcases vmergeS_list_acc cs _ w h4 with ⟨zs, hzz, _⟩ | ⟨_, _, rfl⟩
                  · exact PVal.noConfusion hzz
                  · rfl
                have hy : y = PVal.list cs := by
                  rcases vmergeS_list_acc cs _ y h2 with ⟨zs, hzz, _⟩ | ⟨_, _, rfl⟩
                  · exact PVal.noConfusion hzz
                  · rfl
                rw [hy, hw]
              · rw [h2] at h4
                exact Except.ok.inj h4
            | int nn =>
              have hz : z = vc := vmergeS_scalar_acc _ vc z (by simp [typeOf]) h3
              subst hz
              rw [h2] at h4
              exact Except.ok.inj h4
            | bool bb =>
              have hz : z = vc := vmergeS_scalar_acc _ vc z (by simp [typeOf]) h3
              subst hz
              rw [h2] at h4
              exact Except.ok.inj h4
            | str ss =>
              have hz : z = vc := vmergeS_scalar_acc _ vc z (by simp [typeOf]) h3
              subst hz
              rw [h2] at h4
              exact Except.ok.inj h4
            | pnone =>
              have hz : z = vc := vmergeS_scalar_acc _ vc z (by simp [typeOf]) h3
              subst hz
              rw [h2] at h4
              exact Except.ok.inj h4
          · have htb' : truthy vb = false := by
              revert htb; cases truthy vb <;> simp
            rw [vstep_falsy _ _ htb'] at h3
            have hz := Except.ok.inj h3
            subst hz
            rw [h2] at h4
            exact Except.ok.inj h4
      | dict ud =>
        have hud : ud ≠ [] := by
          intro hnil; rw [hnil] at htu; simp [truthy] at htu
        rcases vmergeS_dict_acc ud vb x h1 with ⟨vbd, xd, rfl, hmab, rfl⟩ | ⟨vbs, rfl, hin, rfl⟩
        · -- both accumulator and incoming values are dicts: recursive merge
          by_cases htb : truthy (PVal.dict vbd) = true
          · have hxd : xd ≠ [] := mE_ne_nil vbd ud xd hmab hud
            have htx : truthy (PVal.dict xd) = true := by
              cases xd with
              | nil => exact absurd rfl hxd
              | cons aa ll => simp [truthy]
            rw [vstep_truthy _ _ htx] at h2
            rw [vstep_truthy _ _ htb] at h3
            rcases vmergeS_dict_acc vbd vc z h3 with ⟨vcd, zd, rfl, hmbc, rfl⟩ | ⟨vcs, rfl, hin2, rfl⟩
            · rcases vmergeS_dict_acc ud _ w h4 with ⟨zd2, wd, hzz, hmw, rfl⟩ | ⟨ws, hww, _, _⟩
              · injection hzz with hz
                subst hz
                rcases vmergeS_dict_acc xd _ y h2 with ⟨vcd2, yd, hcc, hmy, rfl⟩ | ⟨ys, hyy, _, _⟩
                · injection hcc with hc
                  subst hc
                  have hs : psizeEntries ud + psizeEntries vbd + psizeEntries vcd ≤ n := by
                    simp only [osize, psize] at hsz
                    omega
                  have hda := ihDA ud vbd vcd xd yd zd wd hs hwfu hwfb hwfc
                    hmab hmy hmbc hmw
                  rw [hda]
                · exact PVal.noConfusion hyy
              · exact PVal.noConfusion hww
            · rcases vmergeS_dict_acc ud _ w h4 with ⟨zd2, wd, hzz, _, _⟩ | ⟨ws, hww, _, rfl⟩
              · exact PVal.noConfusion hzz
              · rcases vmergeS_dict_acc xd _ y h2 with ⟨vcd2, yd, hcc, _, _⟩ | ⟨ys, hyy, _, rfl⟩
                · exact PVal.noConfusion hcc
                · rfl
          · have hvbd : vbd = [] := by
              cases vbd with
              | nil => rfl
              | cons aa ll => exact absurd (by simp [truthy]) htb
            subst hvbd
            have hxu : ud = xd := by
              have hid : mergeEntriesS ud ([] : PDict) true = .ok ud := by
                simp [mergeEntriesS]
              rw [hid] at hmab
              exact Except.ok.inj hmab
            subst hxu
            rw [vstep_falsy _ _ (by simp [truthy])] at h3
            have hz := Except.ok.inj h3
            subst hz
            rw [vstep_truthy _ _ htu] at h2
            rw [h2] at h4
            exact Except.ok.inj h4
        · -- the incoming list contained the accumulator's dict and was adopted
          have hvbs : vbs ≠ [] := by
            intro hnil; rw [hnil] at hin; simp [pyIn] at hin
          have htb : truthy (PVal.list vbs) = true := by
            cases vbs with
            | nil => exact absurd rfl hvbs
            | cons aa ll => simp [truthy]
          rw [vstep_truthy _ _ htb] at h2 h3
          have hyz : y = z := by rw [h2] at h3; exact Except.ok.inj h3
          rcases vmergeS_list_acc vbs vc y h2 with ⟨vcs, rfl, rfl⟩ | ⟨hnl, hin2, rfl⟩
          · rw [← hyz] at h4
            rcases vmergeS_dict_acc ud _ w h4 with ⟨zd2, wd, hzz, _, _⟩ | ⟨ws, _, _, rfl⟩
            · exact PVal.noConfusion hzz
            · rfl
          · rw [← hyz] at h4
            rcases vmergeS_dict_acc ud _ w h4 with ⟨zd2, wd, hzz, _, _⟩ | ⟨ws, _, _, rfl⟩
            · exact PVal.noConfusion hzz
            · rfl
    · have htu' : truthy u = false := by
        revert htu; cases truthy u <;> simp
      rw [vstep_falsy _ _ htu'] at h1 h4
      have hx := Except.ok.inj h1
      have hw := Except.ok.inj h4
      subst hx
      rw [h2] at h3
      exact (Except.ok.inj h3).trans hw

theorem da_succ (n : Nat) (ihVA : VAat n) : DAat (n + 1) := by
  intro a b c ab abc bc abc2 hsz hwa hwb hwc hab habc hbc habc2
  obtain ⟨na, hwfa⟩ := dictWF_parts a hwa
  obtain ⟨nb, hwfb⟩ := dictWF_parts b hwb
  obtain ⟨nc, hwfc⟩ := dictWF_parts c hwc
  obtain ⟨Sab1, Sab2, Kab⟩ := mE_spec b a ab nb hab
  have nab : (dkeys ab).Nodup := nodup_merge_keys a b ab Kab na nb
  obtain ⟨Sabc1, Sabc2, Kabc⟩ := mE_spec c ab abc nc habc
  obtain ⟨Sbc1, Sbc2, Kbc⟩ := mE_spec c b bc nc hbc
  have nbc : (dkeys bc).Nodup := nodup_merge_keys b c bc Kbc nb nc
  obtain ⟨Sa1, Sa2, Kabc2⟩ := mE_spec bc a abc2 nbc habc2
  have nabc : (dkeys abc).Nodup := nodup_merge_keys ab c abc Kabc nab nc
  have habset : ∀ k, (alookup ab k).isNone =
      ((alookup a k).isNone && (alookup b k).isNone) :=
    alookup_none_merge a b ab Kab
  have hkeys : dkeys abc = dkeys abc2 := by
    rw [Kabc, Kab, Kabc2, Kbc]
    rw [List.filter_append]
    rw [List.append_assoc]
    congr 1
    congr 1
    rw [List.filter_filter]
    exact List.filter_congr (fun k _ => habset k)
  have hlook : ∀ k, alookup abc k = alookup abc2 k := by
    intro k
    cases hbk : alookup b k with
    | none =>
      cases hck : alookup c k with
      | none =>
        have h1 : alookup ab k = alookup a k := Sab2 k hbk
        have h2 : alookup abc k = alookup ab k := Sabc2 k hck
        have h3 : alookup bc k = alookup b k := Sbc2 k hck
        have h4 : alookup abc2 k = alookup a k := Sa2 k (by rw [h3, hbk])
        rw [h2, h1, h4]
      | some vc =>
        have h1 : alookup ab k = alookup a k := Sab2 k hbk
        obtain ⟨y, hy1, hy2⟩ := Sabc1 k vc hck
        obtain ⟨z, hz1, hz2⟩ := Sbc1 k vc hck
        rw [hbk, vstep_none] at hz1
        have hzv := Except.ok.inj hz1
        obtain ⟨w2, hw1, hw2⟩ := Sa1 k z hz2
        rw [h1] at hy1
        rw [← hzv] at hw1
        rw [hy1] at hw1
        rw [hy2, hw2, Except.ok.inj hw1]
    | some vb =>
      cases hck : alookup c k with
      | none =>
        obtain ⟨x, hx1, hx2⟩ := Sab1 k vb hbk
        have h2 : alookup abc k = alookup ab k := Sabc2 k hck
        have h3 : alookup bc k = alookup b k := Sbc2 k hck
        obtain ⟨w2, hw1, hw2⟩ := Sa1 k vb (by rw [h3, hbk])
        rw [hx1] at hw1
        rw [h2, hx2, hw2, Except.ok.inj hw1]
      | some vc =>
        obtain ⟨x, hx1, hx2⟩ := Sab1 k vb hbk
        obtain ⟨y, hy1, hy2⟩ := Sabc1 k vc hck
        obtain ⟨z, hz1, hz2⟩ := Sbc1 k vc hck
        obtain ⟨w2, hw1, hw2⟩ := Sa1 k z hz2
        rw [hx2] at hy1
        rw [hbk] at hz1
        have hvbwf : valWF vb = true :=
          valWF_of_mem_entries b k vb hwfb (mem_of_alookup_eq_some b k vb hbk)
        have hvcwf : valWF vc = true :=
          valWF_of_mem_entries c k vc hwfc (mem_of_alookup_eq_some c k vc hck)
        have howf : owf (alookup a k) = true := by
          cases hak : alookup a k with
          | none => rfl
          | some ua =>
            exact valWF_of_mem_entries a k ua hwfa (mem_of_alookup_eq_some a k ua hak)
        have hsz2 : osize (alookup a k) + psize vb + psize vc ≤ n := by
          have hb' : psize vb < psizeEntries b :=
            psize_lt_of_mem_entries k vb b (mem_of_alookup_eq_some b k vb hbk)
          have hc' : psize vc < psizeEntries c :=
            psize_lt_of_mem_entries k vc c (mem_of_alookup_eq_some c k vc hck)
          cases hak : alookup a k with
          | none => simp only [osize]; omega
          | some ua =>
            have ha' : psize ua < psizeEntries a :=
              psize_lt_of_mem_entries k ua a (mem_of_alookup_eq_some a k ua hak)
            simp only [osize]
            omega
        have hva := ihVA (alookup a k) vb vc x y z w2 hsz2 howf hvbwf hvcwf
          hx1 hy1 hz1 hw1
        rw [hy2, hw2, hva]
  exact pdict_ext abc abc2 hkeys nabc hlook

theorem assoc_main : ∀ n : Nat, VAat n ∧ DAat n := by
  intro n
  induction n with
  | zero =>
    constructor
    · intro uo vb vc x y z w hsz _ _ _ _ _ _ _
      have hb := psize_pos vb
      have hc := psize_pos vc
      omega
    · intro a b c ab abc bc abc2 hsz _ _ _ _ _ _ _
      have ha := psizeEntries_pos a
      have hb := psizeEntries_pos b
      omega
  | succ n ih => exact ⟨va_succ n ih.2, da_succ n ih.1⟩

/-- Claim C6: for all well-formed mappings `a`, `b`, `c` on which no
merge step raises a type conflict (every pairwise merge involved
succeeds), `dict_merge(dict_merge(a, b), c)`, `dict_merge(a,
dict_merge(b, c))` and `dict_merge(a, b, c)` all return the same
dict — associativity over non-conflicting layers. -/
theorem c6_associative (a b c ab abc bc abc2 : PDict)
    (hwa : dictWF a = true) (hwb : dictWF b = true) (hwc : dictWF c = true)
    (hab : dictMergeStac [a, b] true = .ok ab)
    (habc : dictMergeStac [ab, c] true = .ok abc)
    (hbc : dictMergeStac [b, c] true = .ok bc)
    (habc2 : dictMergeStac [a, bc] true = .ok abc2) :
    abc2 = abc ∧ dictMergeStac [a, b, c] true = .ok abc := by
  rw [dictMergeStac_pair_ok] at hab habc hbc habc2
  have hm := (assoc_main (psizeEntries a + psizeEntries b + psizeEntries c)).2
    a b c ab abc bc abc2 (le_refl _) hwa hwb hwc hab habc hbc habc2
  exact ⟨hm.symm, dictMergeStac_triple a b c ab abc hab habc⟩

theorem c6_witness :
    dictWF [("x", PVal.int 1)] = true ∧
    dictWF [("y", PVal.int 2)] = true ∧
    dictWF [("x", PVal.int 3)] = true ∧
    dictMergeStac [[("x", PVal.int 1)], [("y", PVal.int 2)]] true =
      .ok [("x", PVal.int 1), ("y", PVal.int 2)] ∧
    dictMergeStac [[("x", PVal.int 1), ("y", PVal.int 2)], [("x", PVal.int 3)]] true =
      .ok [("x", PVal.int 3), ("y", PVal.int 2)] ∧
    dictMergeStac [[("y", PVal.int 2)], [("x", PVal.int 3)]] true =
      .ok [("y", PVal.int 2), ("x", PVal.int 3)] ∧
    dictMergeStac [[("x", PVal.int 1)], [("y", PVal.int 2), ("x", PVal.int 3)]] true =
      .ok [("x", PVal.int 3), ("y", PVal.int 2)] ∧
    [("x", PVal.int 3), ("y", PVal.int 2)] = [("x", PVal.int 3), ("y", PVal.int 2)] ∧
    dictMergeStac [[("x", PVal.int 1)], [("y", PVal.int 2)], [("x", PVal.int 3)]] true =
      .ok [("x", PVal.int 3), ("y", PVal.int 2)] := by
  have hwa : dictWF [("x", PVal.int 1)] = true := by
    simp [dictWF, valWF, dictWFaux, dkeys]
  have hwb : dictWF [("y", PVal.int 2)] = true := by
    simp [dictWF, valWF, dictWFaux, dkeys]
  have hwc : dictWF [("x", PVal.int 3)] = true := by
    simp [dictWF, valWF, dictWFaux, dkeys]
  have hab : dictMergeStac [[("x", PVal.int 1)], [("y", PVal.int 2)]] true =
      .ok [("x", PVal.int 1), ("y", PVal.int 2)] := by
    simp [dictMergeStac, mergeLayersS, mergeEntriesS, alookup, aset, truthy]
  have habc : dictMergeStac [[("x", PVal.int 1), ("y", PVal.int 2)],
      [("x", PVal.int 3)]] true = .ok [("x", PVal.int 3), ("y", PVal.int 2)] := by
    simp [dictMergeStac, mergeLayersS, mergeEntriesS, vmergeS, isinst, typeOf,
      alookup, aset, truthy]
  have hbc : dictMergeStac [[("y", PVal.int 2)], [("x", PVal.int 3)]] true =
      .ok [("y", PVal.int 2), ("x", PVal.int 3)] := by
    simp [dictMergeStac, mergeLayersS, mergeEntriesS, alookup, aset, truthy]
  have habc2 : dictMergeStac [[("x", PVal.int 1)],
      [("y", PVal.int 2), ("x", PVal.int 3)]] true =
      .ok [("x", PVal.int 3), ("y", PVal.int 2)] := by
    simp [dictMergeStac, mergeLayersS, mergeEntriesS, vmergeS, isinst, typeOf,
      alookup, aset, truthy]
  have hmain := c6_associative [("x", PVal.int 1)] [("y", PVal.int 2)]
    [("x", PVal.int 3)] [("x", PVal.int 1), ("y", PVal.int 2)]
    [("x", PVal.int 3), ("y", PVal.int 2)] [("y", PVal.int 2), ("x", PVal.int 3)]
    [("x", PVal.int 3), ("y", PVal.int 2)] hwa hwb hwc hab habc hbc habc2
  exact ⟨hwa, hwb, hwc, hab, habc, hbc, habc2, hmain.1, hmain.2⟩

end StacGen
